import Mathlib

/-!
Verification of `src/agents/pi-embedded-subscribe.ts` (openclaw).

Strings are modelled as `List Char` (UTF-16 code points of the TypeScript
strings; all inputs of interest are within the BMP, where JS string indices
coincide with code-point indices).  Regular-expression based helpers of the
source are embedded as explicit, executable scanners.
-/

/-- TypeScript strings, modelled as lists of characters. -/
abbrev Str := List Char

/-- The JavaScript whitespace class (`\s`, `trim()`): ASCII whitespace plus
the Unicode space separators used by JS engines. -/
def isJsWs (c : Char) : Bool :=
  c = ' ' ∨ c = '\t' ∨ c = '\n' ∨ c = '\r' ∨ c = '\x0b' ∨ c = '\x0c' ∨
  c = ' ' ∨ c = ' ' ∨ c = ' ' ∨ c = ' ' ∨ c = ' ' ∨
  c = ' ' ∨ c = ' ' ∨ c = ' ' ∨ c = ' ' ∨ c = ' ' ∨
  c = ' ' ∨ c = ' ' ∨ c = ' ' ∨ c = ' ' ∨ c = ' ' ∨
  c = ' ' ∨ c = ' ' ∨ c = '　' ∨ c = '﻿'

/-- JS `String.prototype.trimStart`. -/
def trimStart (cs : Str) : Str := cs.dropWhile isJsWs

/-- JS `String.prototype.trimEnd`. -/
def trimEnd (cs : Str) : Str := (cs.reverse.dropWhile isJsWs).reverse

/-- JS `String.prototype.trim`. -/
def trimStr (cs : Str) : Str := trimEnd (trimStart cs)

/-- Case-insensitive literal matcher: on success returns the rest of the
input after the literal (the `i` flag of the source's regexes). -/
def matchCI : Str → Str → Option Str
  | [], rest => some rest
  | _ :: _, [] => none
  | p :: ps, c :: cs => if p.toLower = c.toLower then matchCI ps cs else none

/-- `\s*`: drop leading JS whitespace. -/
def skipWs (cs : Str) : Str := cs.dropWhile isJsWs

def thinkLit : Str := ("think").toList
def ingLit : Str := ("ing").toList
def finalLit : Str := ("final").toList

/-- `\s*\/?\s*` after the opening `<`: whether a `/` was consumed, and the
remainder. -/
def slashPart : Str → Bool × Str
  | '/' :: r => (true, skipWs r)
  | r => (false, r)

/-- The greedy optional `(?:ing)?`. -/
def ingPart (r : Str) : Str :=
  match matchCI ingLit r with
  | some rb => rb
  | none => r

/-- Matcher for `THINKING_TAG_RE = /<\s*\/?\s*think(?:ing)?\s*>/gi` at the
head of the input.  On success returns whether the tag is a closing tag
(contains `/`) together with the input remaining after the tag.  The
greedy optional `(?:ing)?` needs no backtracking: if `ing` matches, the
direct `\s*>` continuation from before `ing` would start at `i`/`I` and
fail anyway. -/
def matchThinkTag (cs : Str) : Option (Bool × Str) :=
  match cs with
  | '<' :: rest =>
    match matchCI thinkLit (slashPart (skipWs rest)).2 with
    | none => none
    | some r3 =>
      match skipWs (ingPart r3) with
      | '>' :: r5 => some ((slashPart (skipWs rest)).1, r5)
      | _ => none
  | _ => none

/-- `THINKING_TAG_RE.test`/the scanning used by `matchAll`: does a thinking
tag (open or close) match at some position?  Since a tag contains a single
`<` (at its start), matches can never begin strictly inside another match,
so position-by-position scanning coincides with `matchAll`. -/
def containsThinkTag : Str → Bool
  | [] => false
  | c :: cs => (matchThinkTag (c :: cs)).isSome || containsThinkTag cs

/-- Does a thinking tag of the given kind (`THINKING_OPEN_RE` for
`wantClose = false`, `THINKING_CLOSE_RE` for `wantClose = true`) match
somewhere? -/
def hasThinkTagKind (wantClose : Bool) : Str → Bool
  | [] => false
  | c :: cs =>
    (match matchThinkTag (c :: cs) with
     | some p => p.1 = wantClose
     | none => false) || hasThinkTagKind wantClose cs

/-- `text.replace(RE, "")` for the first thinking tag of the given kind. -/
def removeFirstThinkTag (wantClose : Bool) : Str → Str
  | [] => []
  | c :: cs =>
    match matchThinkTag (c :: cs) with
    | some p =>
      if p.1 = wantClose then p.2 else c :: removeFirstThinkTag wantClose cs
    | none => c :: removeFirstThinkTag wantClose cs

/-- The scanning loop of `stripThinkingSegments` (lines 57-76): walk the
matches of `THINKING_TAG_RE` left to right, keeping text only while not
inside a thinking segment; an unpaired trailing open tag drops the tail.
Fuel-structured so the kernel can evaluate it; the tag branch consumes at
least two characters, so fuel `cs.length` always suffices. -/
def stripGo : Nat → Str → Bool → Str
  | 0, _, _ => []
  | _ + 1, [], _ => []
  | fuel + 1, c :: cs, inTh =>
    match matchThinkTag (c :: cs) with
    | some p => stripGo fuel p.2 (!p.1)
    | none => (if inTh then [] else [c]) ++ stripGo fuel cs inTh

/-- `stripThinkingSegments` (source lines 57-76).  The source's initial
`THINKING_TAG_RE.test` early-out returns the input unchanged exactly when
there is no match, which the scan also does, so it needs no separate case. -/
def stripThinkingSegments (cs : Str) : Str := stripGo cs.length cs false

/-- `stripUnpairedThinkingTags` (source lines 78-86). -/
def stripUnpairedThinkingTags (cs : Str) : Str :=
  if cs = [] then cs
  else
    let hasOpen := hasThinkTagKind false cs
    let hasClose := hasThinkTagKind true cs
    if hasOpen ∧ hasClose then cs
    else if ¬hasOpen then removeFirstThinkTag true cs
    else if ¬hasClose then removeFirstThinkTag false cs
    else cs

/-- Matcher for `FINAL_START_RE = /<\s*final\s*>/i` (`wantClose = false`) and
`FINAL_END_RE = /<\s*\/\s*final\s*>/i` (`wantClose = true`) at the head of
the input; returns the remainder after the tag. -/
def matchFinalTag (wantClose : Bool) (cs : Str) : Option Str :=
  match cs with
  | '<' :: rest =>
    let r1 := skipWs rest
    let r2 : Option Str :=
      if wantClose then
        match r1 with
        | '/' :: r => some (skipWs r)
        | _ => none
      else some r1
    match r2 with
    | none => none
    | some r2' =>
      match matchCI finalLit r2' with
      | none => none
      | some r3 =>
        match skipWs r3 with
        | '>' :: r5 => some r5
        | _ => none
  | _ => none

/-- `RE.exec`: first match of a final tag; returns the text before the
match and the text after it. -/
def findFinalTag (wantClose : Bool) : Str → Option (Str × Str)
  | [] => none
  | c :: cs =>
    match matchFinalTag wantClose (c :: cs) with
    | some rest => some ([], rest)
    | none =>
      match findFinalTag wantClose cs with
      | some p => some (c :: p.1, p.2)
      | none => none

/-- `FINAL_START_RE.test` / `FINAL_END_RE.test`. -/
def hasFinalTag (wantClose : Bool) (cs : Str) : Bool :=
  (findFinalTag wantClose cs).isSome

/-- `text.replace(RE, "")` for a final tag (first match removed). -/
def removeFirstFinalTag (wantClose : Bool) (cs : Str) : Str :=
  match findFinalTag wantClose cs with
  | some p => p.1 ++ p.2
  | none => cs

/-- `sanitizeFinalText` (source lines 160-167). -/
def sanitizeFinalText (cs : Str) : Str :=
  if cs = [] then cs
  else
    let hasStart := hasFinalTag false cs
    let hasEnd := hasFinalTag true cs
    if hasStart ∧ ¬hasEnd then removeFirstFinalTag false cs
    else if ¬hasStart ∧ hasEnd then removeFirstFinalTag true cs
    else cs

/-- `extractFinalText` (source lines 168-177): `undefined` becomes `none`. -/
def extractFinalText (cs : Str) : Option Str :=
  let cleaned := sanitizeFinalText cs
  match findFinalTag false cleaned with
  | none => none
  | some p =>
    match findFinalTag true p.2 with
    | some q => some q.1
    | none => some p.2

/-- `TOOL_RESULT_MAX_CHARS` (source line 20). -/
def TOOL_RESULT_MAX_CHARS : Nat := 8000

/-- The suffix appended by `truncateToolText`. -/
def truncSuffix : Str := ("\n…(truncated)…").toList

/-- `truncateToolText` (source lines 28-31). -/
def truncateToolText (text : Str) : Str :=
  if text.length ≤ TOOL_RESULT_MAX_CHARS then text
  else text.take TOOL_RESULT_MAX_CHARS ++ truncSuffix

/-- JSON-like values flowing through `sanitizeToolResult`.  A JS property
whose value is `undefined` is modelled as the property being absent (that
is how such objects serialize to consumers). -/
inductive JVal where
  | jnull
  | jbool (b : Bool)
  | jnum (n : Int)
  | jstr (s : Str)
  | jarr (xs : List JVal)
  | jobj (fields : List (Str × JVal))

/-- First-key property read (JS objects have unique keys). -/
def getField (k : Str) : List (Str × JVal) → Option JVal
  | [] => none
  | (k', v) :: fs => if k' = k then some v else getField k fs

/-- JS spread-update `{...o, k: v}`: replace in place, else append. -/
def setField (k : Str) (v : JVal) : List (Str × JVal) → List (Str × JVal)
  | [] => [(k, v)]
  | (k', v') :: fs => if k' = k then (k, v) :: fs else (k', v') :: setField k v fs

/-- `delete o.k` (and a property set to `undefined`). -/
def removeField (k : Str) (fs : List (Str × JVal)) : List (Str × JVal) :=
  fs.filter (fun p => ¬(p.1 = k))

def typeKey : Str := ("type").toList
def textKey : Str := ("text").toList
def imageLit : Str := ("image").toList
def dataKey : Str := ("data").toList
def bytesKey : Str := ("bytes").toList
def omittedKey : Str := ("omitted").toList
def contentKey : Str := ("content").toList

/-- The image branch of the item mapping (source lines 45-51):
`const data = typeof entry.data === "string" ? entry.data : undefined;
const bytes = data ? data.length : undefined; delete cleaned.data;
return { ...cleaned, bytes, omitted: true }`.  A property set to
`undefined` (a missing/non-string/empty `data`) is modelled as absent. -/
def sanitizeImageEntry (entry : List (Str × JVal)) : List (Str × JVal) :=
  let bytesOpt : Option JVal :=
    match getField dataKey entry with
    | some (.jstr s) => if s = [] then none else some (.jnum s.length)
    | _ => none
  let cleaned := removeField dataKey entry
  let withBytes :=
    match bytesOpt with
    | some bv => setField bytesKey bv (removeField bytesKey cleaned)
    | none => removeField bytesKey cleaned
  setField omittedKey (.jbool true) (removeField omittedKey withBytes)

/-- The per-item mapping inside `sanitizeToolResult` (source lines 38-53).
`bytes` is `data ? data.length : undefined`: for a missing, non-string or
empty `data` the `bytes` property is absent. -/
def sanitizeToolItem (item : JVal) : JVal :=
  match item with
  | .jobj entry =>
    match getField typeKey entry with
    | some (.jstr t) =>
      if t = textKey then
        match getField textKey entry with
        | some (.jstr s) => .jobj (setField textKey (.jstr (truncateToolText s)) entry)
        | _ => .jobj entry
      else if t = imageLit then .jobj (sanitizeImageEntry entry)
      else .jobj entry
    | _ => .jobj entry
  | v => v

/-- `sanitizeToolResult` (source lines 33-55). -/
def sanitizeToolResult (result : JVal) : JVal :=
  match result with
  | .jobj record =>
    match getField contentKey record with
    | some (.jarr content) =>
      .jobj (setField contentKey (.jarr (content.map sanitizeToolItem)) record)
    | _ => .jobj record
  | v => v

/-- `BlockReplyChunking.breakPreference` (source line 25). -/
inductive BreakPref where
  | paragraph
  | newline
  | sentence
deriving DecidableEq

/-- `BlockReplyChunking` (source lines 22-26); `minChars`/`maxChars` are
used through `Math.max(1, Math.floor(minChars))` etc., so they are
modelled as naturals (on which `Math.floor` is the identity). -/
structure BlockReplyChunking where
  minChars : Nat
  maxChars : Nat
  breakPreference : Option BreakPref := none

/-- `Math.max(1, Math.floor(chunking.minChars))`. -/
def effMin (ch : BlockReplyChunking) : Nat := max 1 ch.minChars

/-- `Math.max(minChars, Math.floor(chunking.maxChars))`. -/
def effMax (ch : BlockReplyChunking) : Nat := max (effMin ch) ch.maxChars

/-- JS `w.lastIndexOf(pat)` (start index of the last occurrence, `-1` if
none). -/
def lastIndexOfSub (pat w : Str) : Int :=
  match ((List.range (w.length + 1)).filter
      (fun i => pat.isPrefixOf (w.drop i))).getLast? with
  | some i => (i : Int)
  | none => -1

def nlStr : Str := ['\n']

/-- `findSentenceBreak` (source lines 191-201): last position `at ≥ minChars`
of `[.!?]` followed by whitespace or end of window, returned as `at + 1`;
`-1` if none. -/
def findSentenceBreak (w : Str) (minChars : Nat) : Int :=
  match ((List.range w.length).filter (fun i =>
      (w.getD i ' ' = '.' ∨ w.getD i ' ' = '!' ∨ w.getD i ' ' = '?') ∧
      (i + 1 = w.length ∨ isJsWs (w.getD (i + 1) ' ')) ∧
      minChars ≤ i)).getLast? with
  | some i => (i : Int) + 1
  | none => -1

/-- `findWhitespaceBreak` (source lines 203-208): largest `i ≥ minChars`
with whitespace at `i`; `-1` if none. -/
def findWhitespaceBreak (w : Str) (minChars : Nat) : Int :=
  match ((List.range w.length).filter (fun i =>
      minChars ≤ i ∧ isJsWs (w.getD i ' '))).getLast? with
  | some i => (i : Int)
  | none => -1

def nl2Str : Str := nlStr ++ nlStr

/-- `pickBreakIndex` (source lines 210-241) for a present chunking config
(`drainBlockBuffer` never calls it otherwise). -/
def pickBreakIndex (ch : BlockReplyChunking) (buffer : Str) : Int :=
  let minChars := effMin ch
  let maxChars := effMax ch
  if buffer.length < minChars then -1
  else
    let window := buffer.take (Nat.min maxChars buffer.length)
    let pref := ch.breakPreference.getD .paragraph
    let paragraphIdx := lastIndexOfSub nl2Str window
    if pref = .paragraph ∧ (minChars : Int) ≤ paragraphIdx then paragraphIdx
    else
      let newlineIdx := lastIndexOfSub nlStr window
      if (pref = .paragraph ∨ pref = .newline) ∧ (minChars : Int) ≤ newlineIdx then
        newlineIdx
      else
        let sentenceIdx :=
          if pref ≠ .newline then findSentenceBreak window minChars else -1
        if pref ≠ .newline ∧ (minChars : Int) ≤ sentenceIdx then sentenceIdx
        else
          let whitespaceIdx := findWhitespaceBreak window minChars
          if (minChars : Int) ≤ whitespaceIdx then whitespaceIdx
          else if maxChars ≤ buffer.length then (maxChars : Int)
          else -1

/-- `emitBlockChunk` (source lines 243-256) restricted to the data it
decides on: the trimmed chunk is dropped when empty or equal to the last
emitted block text; otherwise it is appended and becomes the new last. -/
def emitStep (last : Option Str) (acc : List Str) (text : Str) :
    List Str × Option Str :=
  let c := trimEnd text
  if c = [] then (acc, last)
  else if some c = last then (acc, last)
  else (acc ++ [c], some c)

/-- The `while` loop of `drainBlockBuffer` (source lines 268-290).  Each
iteration consumes at least one character of the buffer, so fuel
`buffer.length` always suffices; with zero fuel the buffer is empty and
the loop condition is false anyway. -/
def drainGo : Nat → BlockReplyChunking → Bool → Str → Option Str → List Str →
    List Str × Str × Option Str
  | 0, _, _, buffer, last, acc => (acc, buffer, last)
  | fuel + 1, ch, force, buffer, last, acc =>
    if ¬(effMin ch ≤ buffer.length ∨ (force ∧ 0 < buffer.length)) then
      (acc, buffer, last)
    else
      let breakIdx := pickBreakIndex ch buffer
      if breakIdx ≤ 0 then
        if force then
          let e := emitStep last acc buffer
          (e.1, [], e.2)
        else (acc, buffer, last)
      else
        let k := breakIdx.toNat
        let rawChunk := buffer.take k
        if trimStr rawChunk = [] then
          drainGo fuel ch force (trimStart (buffer.drop k)) last acc
        else
          let e := emitStep last acc rawChunk
          let nextStart :=
            if k < buffer.length ∧ isJsWs (buffer.getD k ' ') then k + 1 else k
          let buffer2 := trimStart (buffer.drop nextStart)
          if buffer2.length < effMin ch ∧ ¬force then (e.1, buffer2, e.2)
          else if buffer2.length < effMax ch ∧ ¬force then (e.1, buffer2, e.2)
          else drainGo fuel ch force buffer2 e.2 e.1

/-- `drainBlockBuffer` (source lines 258-291), as a function of the buffer
and the dedup register `lastBlockReplyText`: returns the chunks accepted by
`emitBlockChunk`, the remaining buffer and the new register. -/
def drainBlockBuffer (chOpt : Option BlockReplyChunking) (force : Bool)
    (buffer : Str) (last : Option Str) : List Str × Str × Option Str :=
  match chOpt with
  | none => ([], buffer, last)
  | some ch =>
    if force ∧ 0 < buffer.length ∧ buffer.length ≤ effMax ch then
      let e := emitStep last [] buffer
      (e.1, [], e.2)
    else if buffer.length < effMin ch ∧ ¬force then ([], buffer, last)
    else drainGo buffer.length ch force buffer last []

/-- `blockReplyBreak` (source line 101). -/
inductive ReplyBreak where
  | textEnd
  | messageEnd
deriving DecidableEq

/-- The parameters of `subscribeEmbeddedPiSession` relevant to the assistant
text pipeline.  `splitMedia` stands for `splitMediaFromOutput` from
`src/media/parse.js`, which is outside the embedded file; theorems
quantify over it. -/
structure SubscriberParams where
  enforceFinalTag : Bool
  blockReplyBreak : ReplyBreak := .textEnd
  blockReplyChunking : Option BlockReplyChunking := none
  hasOnBlockReply : Bool := true
  hasOnPartialReply : Bool := true
  splitMedia : Str → Str × List Str

/-- Modelled from the spec: `splitMediaFromOutput` (in `src/media/parse.js`,
not part of the embedded file) scans a chunk for media pseudo-URLs, strips
them from the text and returns them in a parallel list; on text containing
no media pseudo-URLs it returns the text unchanged and finds no URLs.
This instance gives its behaviour on the media-free strings used by the
concrete traces below; general theorems quantify over the function. -/
def splitMediaId : Str → Str × List Str := fun s => (s, [])

/-- The assistant text-stream event kinds handled at source lines 440-444. -/
inductive TextEvtKind where
  | textStart
  | textDelta
  | textEnd
deriving DecidableEq

/-- The agent events consumed by the subscriber callback (source lines
305-631), restricted to the fields it reads.  `messageEnd` carries
`extractAssistantText(msg)` and `toolStart` carries
`inferToolMetaFromArgs(toolName, args)`, both computed by
`pi-embedded-utils.js` outside the embedded file. -/
inductive AgentEvt where
  | messageUpdate (isAssistant : Bool) (kind : TextEvtKind) (delta : Str) (content : Str)
  | messageEnd (isAssistant : Bool) (text : Str)
  | toolStart (toolCallId : Str) (meta : Option Str)
  | toolEnd (toolName : Str) (toolCallId : Str)
  | autoCompactionStart
  | autoCompactionEnd (willRetry : Bool)
  | agentStart
  | agentEnd

/-- Which code path published a block reply. -/
inductive BlockSource where
  | chunkDrain
  | textEndFlush
  | messageEndFlush
deriving DecidableEq

/-- One `onBlockReply` invocation: the chunk before media extraction, the
payload text and media URLs after it, the reset epoch `seg` (number of
`lastBlockReplyText` resets so far) and the emitting path. -/
structure BlockEntry where
  raw : Str
  text : Str
  mediaUrls : List Str
  seg : Nat
  source : BlockSource
deriving DecidableEq

/-- One `onPartialReply` invocation (before/after media extraction). -/
structure LiveEntry where
  raw : Str
  text : Str
  mediaUrls : List Str
deriving DecidableEq

/-- One firing of `compactionRetryResolve`, with the values of
`pendingCompactionRetry` and `compactionInFlight` at that moment and the
generation number of the promise being resolved. -/
structure ResolveEntry where
  pendingAt : Nat
  inFlightAt : Bool
  gen : Nat
deriving DecidableEq

/-- The mutable state captured by `subscribeEmbeddedPiSession`'s closure
(source lines 113-125), plus observation logs (`liveLog`, `blockLog`,
`resolveLog`) and instrumentation counters (`seg`, `promiseGen`) that
record, without influencing, the callback traffic. -/
structure SubState where
  assistantTexts : List Str := []
  toolMetas : List (Str × Option Str) := []
  toolMetaById : List (Str × Option Str) := []
  deltaBuffer : Str := []
  blockBuffer : Str := []
  lastStreamedAssistant : Option Str := none
  lastBlockReplyText : Option Str := none
  assistantTextBaseline : Nat := 0
  compactionInFlight : Bool := false
  pendingCompactionRetry : Nat := 0
  promiseActive : Bool := false
  promiseGen : Nat := 0
  seg : Nat := 0
  liveLog : List LiveEntry := []
  blockLog : List BlockEntry := []
  resolveLog : List ResolveEntry := []

def initState : SubState := {}

/-- `Map.prototype.set` on the insertion-ordered `toolMetaById`. -/
def setMeta (k : Str) (v : Option Str) :
    List (Str × Option Str) → List (Str × Option Str)
  | [] => [(k, v)]
  | (k', v') :: t => if k' = k then (k, v) :: t else (k', v') :: setMeta k v t

/-- `Map.prototype.get`: `undefined` both for a missing key and for a key
stored with an `undefined` meta. -/
def lookupMeta (k : Str) : List (Str × Option Str) → Option Str
  | [] => none
  | (k', v') :: t => if k' = k then v' else lookupMeta k t

/-- `ensureCompactionPromise` (source lines 127-133); `promiseGen` counts
promise creations. -/
def ensurePromise (s : SubState) : SubState :=
  if s.promiseActive then s
  else { s with promiseActive := true, promiseGen := s.promiseGen + 1 }

/-- `compactionRetryResolve?.(); compactionRetryResolve = undefined;
compactionRetryPromise = null` — fires (and logs) only when a promise with
its resolver is live. -/
def fireResolve (s : SubState) : SubState :=
  let s' :=
    if s.promiseActive then
      { s with resolveLog := s.resolveLog ++
          [⟨s.pendingCompactionRetry, s.compactionInFlight, s.promiseGen⟩] }
    else s
  { s' with promiseActive := false }

/-- `resolveCompactionRetry` (source lines 140-148). -/
def resolveCompactionRetry (s : SubState) : SubState :=
  if s.pendingCompactionRetry = 0 then s
  else
    let s1 := { s with pendingCompactionRetry := s.pendingCompactionRetry - 1 }
    if s1.pendingCompactionRetry = 0 ∧ ¬s1.compactionInFlight then fireResolve s1
    else s1

/-- `maybeResolveCompactionWait` (source lines 150-156). -/
def maybeResolveCompactionWait (s : SubState) : SubState :=
  if s.pendingCompactionRetry = 0 ∧ ¬s.compactionInFlight then fireResolve s
  else s

/-- `resetForCompactionRetry` (source lines 293-303); the tool-debouncer
flush touches no state modelled here.  Clearing `lastBlockReplyText`
advances the dedup epoch `seg`. -/
def resetForCompactionRetry (s : SubState) : SubState :=
  { s with assistantTexts := [], toolMetas := [], toolMetaById := [],
           deltaBuffer := [], blockBuffer := [],
           lastStreamedAssistant := none, lastBlockReplyText := none,
           assistantTextBaseline := 0, seg := s.seg + 1 }

/-- `deltaBuffer.includes(content)` (JS `String.prototype.includes`). -/
def strIncludes (hay needle : Str) : Bool :=
  (List.range (hay.length + 1)).any (fun i => needle.isPrefixOf (hay.drop i))

/-- The `next` computed for the partial stream (source lines 474-479):
thinking-stripping (with unpaired normalization under `enforceFinalTag`),
then `extractFinalText(...)?.trim() ?? cleaned.trim()`. -/
def computeStreamNext (enforce : Bool) (db : Str) : Str :=
  if enforce then
    let cleaned := stripThinkingSegments (stripUnpairedThinkingTags db)
    match extractFinalText cleaned with
    | some t => trimStr t
    | none => trimStr cleaned
  else trimStr (stripThinkingSegments db)

/-- The `text` computed at `message_end` (source lines 539-551); note the
fallback `?? cleaned` is not trimmed there. -/
def computeEndText (enforce : Bool) (t : Str) : Str :=
  let cleaned :=
    if enforce then stripThinkingSegments (stripUnpairedThinkingTags t)
    else stripThinkingSegments t
  if enforce ∧ cleaned ≠ [] then
    match extractFinalText cleaned with
    | some u => trimStr u
    | none => cleaned
  else cleaned

/-- The `onBlockReply` payload built from a chunk (source lines 250-255,
518-524, 567-573): media extraction followed by the guard that drops a
payload with empty text and no media URLs; `none` when no callback runs. -/
def blockPayload (params : SubscriberParams) (src : BlockSource) (seg : Nat)
    (c : Str) : Option BlockEntry :=
  if params.hasOnBlockReply then
    let m := params.splitMedia c
    if m.1 ≠ [] ∨ m.2 ≠ [] then some ⟨c, m.1, m.2, seg, src⟩ else none
  else none

/-- Apply one `drainBlockBuffer(force)` call to the state: chunks accepted
by `emitBlockChunk` are pushed onto `assistantTexts` and, when the
callback exists and the payload guard passes, onto `blockLog`. -/
def applyDrain (params : SubscriberParams) (force : Bool) (s : SubState) :
    SubState :=
  let r := drainBlockBuffer params.blockReplyChunking force s.blockBuffer
      s.lastBlockReplyText
  { s with blockBuffer := r.2.1, lastBlockReplyText := r.2.2,
           assistantTexts := s.assistantTexts ++ r.1,
           blockLog := s.blockLog ++
             r.1.filterMap (blockPayload params .chunkDrain s.seg) }

/-- The `chunk` accumulation at source lines 453-472. -/
def computeChunk (s : SubState) (kind : TextEvtKind) (delta content : Str) : Str :=
  match kind with
  | .textDelta => delta
  | _ =>
    if delta ≠ [] then delta
    else if content ≠ [] then
      if s.deltaBuffer.isPrefixOf content then content.drop s.deltaBuffer.length
      else if content.isPrefixOf s.deltaBuffer then []
      else if ¬(strIncludes s.deltaBuffer content) then content
      else []
    else []

/-- `deltaBuffer += chunk; blockBuffer += chunk` (source lines 469-472). -/
def applyDeltaChunk (s : SubState) (chunk : Str) : SubState :=
  if chunk ≠ [] then
    { s with deltaBuffer := s.deltaBuffer ++ chunk,
             blockBuffer := s.blockBuffer ++ chunk }
  else s

/-- The partial-reply emission (source lines 480-505). -/
def applyPartialEmit (params : SubscriberParams) (s : SubState) (next : Str) :
    SubState :=
  if next ≠ [] ∧ some next ≠ s.lastStreamedAssistant then
    let s' := { s with lastStreamedAssistant := some next }
    if params.hasOnPartialReply then
      { s' with liveLog := s'.liveLog ++
          [⟨next, (params.splitMedia next).1, (params.splitMedia next).2⟩] }
    else s'
  else s

/-- The `text_end` block flush (source lines 511-527). -/
def applyTextEndBlockFlush (params : SubscriberParams) (s : SubState)
    (next : Str) : SubState :=
  if params.blockReplyChunking.isSome ∧ s.blockBuffer ≠ [] then
    applyDrain params true s
  else if next ≠ [] ∧ some next ≠ s.lastBlockReplyText then
    let s' := { s with lastBlockReplyText := some next,
                       assistantTexts := s.assistantTexts ++ [next] }
    match blockPayload params .textEndFlush s'.seg next with
    | some e => { s' with blockLog := s'.blockLog ++ [e] }
    | none => s'
  else s

/-- The assistant `message_update` handler (source lines 426-534) for the
`text_start`/`text_delta`/`text_end` events. -/
def stepTextUpdate (params : SubscriberParams) (s : SubState)
    (kind : TextEvtKind) (delta content : Str) : SubState :=
  let s1 := applyDeltaChunk s (computeChunk s kind delta content)
  let next := computeStreamNext params.enforceFinalTag s1.deltaBuffer
  let s2 := applyPartialEmit params s1 next
  let s3 :=
    if params.hasOnBlockReply ∧ params.blockReplyChunking.isSome then
      applyDrain params false s2
    else s2
  if kind = .textEnd ∧ params.blockReplyBreak = .textEnd then
    let s4 := applyTextEndBlockFlush params s3 next
    { s4 with deltaBuffer := [], blockBuffer := [], lastStreamedAssistant := none }
  else s3

/-- The `message_end` block flush (source lines 558-576). -/
def applyMessageEndBlockFlush (params : SubscriberParams) (s : SubState)
    (text : Str) : SubState :=
  if (params.blockReplyBreak = .messageEnd ∨ s.blockBuffer ≠ []) ∧
      text ≠ [] ∧ params.hasOnBlockReply then
    if params.blockReplyChunking.isSome ∧ s.blockBuffer ≠ [] then
      applyDrain params true s
    else if some text ≠ s.lastBlockReplyText then
      let s' := { s with lastBlockReplyText := some text }
      match blockPayload params .messageEndFlush s'.seg text with
      | some e => { s' with blockLog := s'.blockLog ++ [e] }
      | none => s'
    else s
  else s

/-- The assistant `message_end` handler (source lines 536-582).  Clearing
`lastBlockReplyText` advances the dedup epoch `seg`. -/
def stepMessageEnd (params : SubscriberParams) (s : SubState) (msgText : Str) :
    SubState :=
  let text := computeEndText params.enforceFinalTag msgText
  let s1 :=
    if ¬(s.assistantTextBaseline < s.assistantTexts.length) ∧ text ≠ [] then
      { s with assistantTexts := s.assistantTexts ++ [text] }
    else s
  let s2 := { s1 with assistantTextBaseline := s1.assistantTexts.length }
  let s3 := applyMessageEndBlockFlush params s2 text
  { s3 with deltaBuffer := [], blockBuffer := [], lastStreamedAssistant := none,
            lastBlockReplyText := none, seg := s3.seg + 1 }

/-- One call of the subscriber callback (source lines 305-631) on one agent
event.  Logging, `emitAgentEvent`/`onAgentEvent` mirroring, the tool
debouncer and `onToolResult` touch no state modelled here. -/
def step (params : SubscriberParams) (s : SubState) : AgentEvt → SubState
  | .messageUpdate isAssistant kind delta content =>
    if isAssistant then stepTextUpdate params s kind delta content else s
  | .messageEnd isAssistant text =>
    if isAssistant then stepMessageEnd params s text else s
  | .toolStart toolCallId meta =>
    { s with toolMetaById := setMeta toolCallId meta s.toolMetaById }
  | .toolEnd toolName toolCallId =>
    { s with toolMetas := s.toolMetas ++
        [(toolName, lookupMeta toolCallId s.toolMetaById)] }
  | .autoCompactionStart =>
    ensurePromise { s with compactionInFlight := true }
  | .autoCompactionEnd willRetry =>
    let s1 := { s with compactionInFlight := false }
    if willRetry then
      resetForCompactionRetry (ensurePromise
        { s1 with pendingCompactionRetry := s1.pendingCompactionRetry + 1 })
    else maybeResolveCompactionWait s1
  | .agentStart => s
  | .agentEnd =>
    if 0 < s.pendingCompactionRetry then resolveCompactionRetry s
    else maybeResolveCompactionWait s

/-- Run the subscriber over a sequence of agent events. -/
def runSubscriber (params : SubscriberParams) (events : List AgentEvt) :
    SubState :=
  events.foldl (step params) initState

/-- Every block entry the machine ever logs: its payload is the media split
of its chunk and passes the non-empty guard, and its chunk satisfies the
constraints of the path that emitted it. -/
def GoodEntry (params : SubscriberParams) (e : BlockEntry) : Prop :=
  (e.text = (params.splitMedia e.raw).1 ∧ e.mediaUrls = (params.splitMedia e.raw).2 ∧
   (e.text ≠ [] ∨ e.mediaUrls ≠ []) ∧ params.hasOnBlockReply = true) ∧
  ((e.source = .chunkDrain ∧
      ∀ ch, params.blockReplyChunking = some ch →
        1 ≤ e.raw.length ∧ e.raw.length ≤ effMax ch) ∨
   (e.source = .textEndFlush ∧ e.raw ≠ [] ∧
      ∃ x, e.raw = computeStreamNext params.enforceFinalTag x) ∨
   (e.source = .messageEndFlush ∧ e.raw ≠ [] ∧
      ∃ x, e.raw = computeEndText params.enforceFinalTag x))

/-- The chunks accepted by a run of `emitBlockChunk` starting from dedup
register `last`: each is non-empty, differs from the register, and becomes
the new register; `last'` is the final register value. -/
def ChainFrom : Option Str → List Str → Option Str → Prop
  | last, [], last' => last' = last
  | last, c :: cs, last' => some c ≠ last ∧ c ≠ [] ∧ ChainFrom (some c) cs last'

/-- Every partial-reply entry the machine ever logs: a non-empty image of
the streaming pipeline (thinking-strip, final-tag handling, trim) over
some accumulated delta text. -/
def GoodLive (params : SubscriberParams) (p : LiveEntry) : Prop :=
  p.raw ≠ [] ∧ p.text = (params.splitMedia p.raw).1 ∧
  p.mediaUrls = (params.splitMedia p.raw).2 ∧
  ∃ x, p.raw = computeStreamNext params.enforceFinalTag x

/-- Adjacent block entries of the same dedup epoch carry different chunks. -/
def SameSegNe (a b : BlockEntry) : Prop := a.seg = b.seg → a.raw ≠ b.raw

/-- The promise-related observables: resolve log, whether a promise (and
its resolver) is live, and the promise generation counter. -/
def promiseView (s : SubState) : List ResolveEntry × Bool × Nat :=
  (s.resolveLog, s.promiseActive, s.promiseGen)

/-- The compaction-wait invariant: every resolution fired with no pending
retry and no compaction in flight; generations never exceed the counter,
are strictly below it while a promise is live, and are pairwise distinct
(each promise resolves at most once). -/
def ResolveInv (s : SubState) : Prop :=
  (∀ r ∈ s.resolveLog, r.pendingAt = 0 ∧ r.inFlightAt = false) ∧
  (∀ r ∈ s.resolveLog, r.gen ≤ s.promiseGen) ∧
  (s.promiseActive = true → ∀ r ∈ s.resolveLog, r.gen < s.promiseGen) ∧
  List.Pairwise (fun a b => a.gen ≠ b.gen) s.resolveLog

/-- The block-dedup observables: block log, dedup register, reset epoch. -/
def blockView (s : SubState) : List BlockEntry × Option Str × Nat :=
  (s.blockLog, s.lastBlockReplyText, s.seg)

/-- The block-dedup invariant: when the callback is absent the log is
empty; logged chunks are non-empty; epochs never exceed the current one;
adjacent same-epoch entries differ; and a last entry of the current epoch
is held in the dedup register. -/
def BlockChainInv (params : SubscriberParams) (s : SubState) : Prop :=
  (params.hasOnBlockReply = false → s.blockLog = []) ∧
  (∀ e ∈ s.blockLog, e.raw ≠ []) ∧
  (∀ e ∈ s.blockLog, e.seg ≤ s.seg) ∧
  List.Chain' SameSegNe s.blockLog ∧
  (∀ e, s.blockLog.getLast? = some e → e.seg = s.seg →
    s.lastBlockReplyText = some e.raw)

/-- Media extraction never turns a non-empty chunk into an empty payload
with no URLs (true of any extraction that only moves URLs out of the
text). -/
def SplitKeepsContent (f : Str → Str × List Str) : Prop :=
  ∀ s, s ≠ [] → (f s).1 ≠ [] ∨ (f s).2 ≠ []

/-- Read a field of an object wrapped in `Option JVal`. -/
def itemField (k : Str) (v : Option JVal) : Option JVal :=
  match v with
  | some (.jobj fs) => getField k fs
  | _ => none

/-- First element of the `content` array of a sanitized tool result. -/
def firstContentItem (v : JVal) : Option JVal :=
  match v with
  | .jobj fs =>
    match getField contentKey fs with
    | some (.jarr (x :: _)) => some x
    | _ => none
  | _ => none

/- Concrete inputs used by the counterexamples and witnesses below. -/

def cx1Delta1 : Str := ("x<think>secret</think>y. ").toList
def cx1Delta2 : Str := ("a<th</think>ink>b").toList
def secretLit : Str := ("secret").toList
def cfgC1 : SubscriberParams :=
  { enforceFinalTag := false, blockReplyChunking := some ⟨1, 100, none⟩,
    splitMedia := splitMediaId }
def trC1 : List AgentEvt :=
  [.messageUpdate true .textDelta cx1Delta1 [],
   .messageUpdate true .textDelta cx1Delta2 [],
   .messageUpdate true .textEnd [] []]

def c2Lone : Str := ("hello </final> world").toList
def c2Wf : Str := ("A <final>Hi  x</final> B").toList
def c2Interior : Str := ("Hi  x").toList
def cfgC2 : SubscriberParams :=
  { enforceFinalTag := true, blockReplyBreak := .messageEnd,
    splitMedia := splitMediaId }

def partALit : Str := ("part A").toList
def partBLit : Str := ("part B").toList
def cfgC3 : SubscriberParams :=
  { enforceFinalTag := false, splitMedia := splitMediaId }
/-- Spec end-to-end scenario 6 (compaction retry transparency). -/
def trC3 : List AgentEvt :=
  [.agentStart,
   .messageUpdate true .textDelta partALit [],
   .autoCompactionStart,
   .autoCompactionEnd true,
   .messageUpdate true .textDelta partBLit [],
   .messageUpdate true .textEnd [] partBLit,
   .messageEnd true partBLit,
   .agentEnd]

def cfgC5 : SubscriberParams :=
  { enforceFinalTag := false, blockReplyBreak := .messageEnd,
    blockReplyChunking := some ⟨20, 40, none⟩, splitMedia := splitMediaId }
def longA : Str := List.replicate 100 'a'
def trC5 : List AgentEvt := [.messageEnd true longA]

def s6 : Str :=
  ("Line one is here.\n\nLine two follows here.\n\nLine three.").toList
def cfgC6 : SubscriberParams :=
  { enforceFinalTag := false,
    blockReplyChunking := some ⟨20, 40, some .paragraph⟩,
    splitMedia := splitMediaId }
/-- Spec end-to-end scenario 5, streamed as one delta then flushed. -/
def trC6 : List AgentEvt :=
  [.messageUpdate true .textDelta s6 [],
   .messageUpdate true .textEnd [] s6,
   .messageEnd true s6]
def c6Chunk1 : Str := ("Line one is here.\n\nLine two follows").toList
def c6Chunk2 : Str := ("here.\n\nLine three.").toList
def c6Expected1 : Str := ("Line one is here.").toList
def c6Expected2 : Str := ("Line two follows here.").toList
def c6Expected3 : Str := ("Line three.").toList

def hiLit : Str := ("hi").toList
def cfgC8 : SubscriberParams :=
  { enforceFinalTag := false, splitMedia := splitMediaId }
def trC8 : List AgentEvt :=
  [.messageUpdate true .textDelta hiLit [],
   .messageUpdate true .textEnd [] hiLit,
   .messageEnd true hiLit,
   .messageUpdate true .textDelta hiLit [],
   .messageUpdate true .textEnd [] hiLit,
   .messageEnd true hiLit]

def c9Str : Str := ("a<th</think>ink>b").toList
def c9Clean : Str := ("hello <think>hm</think> world").toList

def cx7Entry : List (Str × JVal) := [(typeKey, .jstr imageLit), (dataKey, .jstr [])]
def cx7 : JVal := .jobj [(contentKey, .jarr [.jobj cx7Entry])]

def cx7b : List (Str × JVal) := [(typeKey, .jstr imageLit), (dataKey, .jstr hiLit)]

/- Concrete log entries used by witnesses. -/

def w6Block1 : BlockEntry := ⟨c6Chunk1, c6Chunk1, [], 0, .chunkDrain⟩
def w6Live1 : LiveEntry := ⟨s6, s6, []⟩
def w3Resolve : ResolveEntry := ⟨0, false, 1⟩

/- Basic length lemmas. -/

theorem dropWhile_length_le (p : Char → Bool) (l : Str) :
    (l.dropWhile p).length ≤ l.length := by
  induction l with
  | nil => simp [List.dropWhile]
  | cons c t ih =>
    simp only [List.dropWhile]
    split
    · exact Nat.le_trans ih (by simp)
    · simp

theorem skipWs_length_le (l : Str) : (skipWs l).length ≤ l.length :=
  dropWhile_length_le isJsWs l

theorem trimStart_length_le (l : Str) : (trimStart l).length ≤ l.length :=
  dropWhile_length_le isJsWs l

theorem trimEnd_length_le (l : Str) : (trimEnd l).length ≤ l.length := by
  unfold trimEnd
  calc (l.reverse.dropWhile isJsWs).reverse.length
      = (l.reverse.dropWhile isJsWs).length := by simp
    _ ≤ l.reverse.length := dropWhile_length_le isJsWs l.reverse
    _ = l.length := by simp

theorem matchCI_length_le {p s r : Str} (h : matchCI p s = some r) :
    r.length ≤ s.length := by
  induction p generalizing s with
  | nil =>
    simp only [matchCI, Option.some.injEq] at h
    subst h
    exact Nat.le_refl _
  | cons a ps ih =>
    cases s with
    | nil => simp [matchCI] at h
    | cons c cs =>
      simp only [matchCI] at h
      split at h
      · exact Nat.le_trans (ih h) (by simp)
      · exact absurd h (by simp)

theorem slashPart_length_le (r : Str) : (slashPart r).2.length ≤ r.length := by
  unfold slashPart
  split
  case _ r' =>
    have := skipWs_length_le r'
    simp only [List.length_cons]
    omega
  case _ => exact Nat.le_refl _

theorem ingPart_length_le (r : Str) : (ingPart r).length ≤ r.length := by
  unfold ingPart
  split
  case _ rb h => exact matchCI_length_le h
  case _ => exact Nat.le_refl _

theorem matchThinkTag_length {cs : Str} {p : Bool × Str}
    (h : matchThinkTag cs = some p) : p.2.length < cs.length := by
  unfold matchThinkTag at h
  split at h
  case _ rest =>
    revert h
    split
    · intro h; exact absurd h (by simp)
    case _ r3 hm3 =>
      split
      case _ r5 heq5 =>
        intro h
        cases h
        have e1 : r5.length + 1 = (skipWs (ingPart r3)).length := by
          rw [heq5]; simp
        have e2 := skipWs_length_le (ingPart r3)
        have e3 := ingPart_length_le r3
        have e4 : r3.length ≤ (slashPart (skipWs rest)).2.length :=
          matchCI_length_le hm3
        have e5 := slashPart_length_le (skipWs rest)
        have e6 := skipWs_length_le rest
        simp only [List.length_cons]
        omega
      case _ => intro h; exact absurd h (by simp)
  case _ => exact absurd h (by simp)

/- `stripThinkingSegments` is the identity on tag-free text. -/

theorem stripGo_id_of_noTag :
    ∀ (n : Nat) (cs : Str), cs.length ≤ n → containsThinkTag cs = false →
      stripGo n cs false = cs := by
  intro n
  induction n with
  | zero =>
    intro cs hlen _
    interval_cases h : cs.length
    · cases cs with
      | nil => rfl
      | cons a t => simp at h
  | succ n ih =>
    intro cs hlen hno
    cases cs with
    | nil => rfl
    | cons c t =>
      simp only [containsThinkTag, Bool.or_eq_false_iff] at hno
      obtain ⟨hmatch, hrest⟩ := hno
      have hnone : matchThinkTag (c :: t) = none :=
        Option.not_isSome_iff_eq_none.mp (by simp [hmatch])
      simp only [stripGo, hnone]
      have : t.length ≤ n := by simp at hlen; omega
      simp [ih t this hrest]

/-- C9 (counterexample): `stripThinkingSegments` is not idempotent.  On
`"a<th</think>ink>b"` the first pass removes the unpaired close tag and
splices `"a<think>b"`, which a second pass strips further to `"a"`. -/
theorem C9_not_idempotent :
    stripThinkingSegments (stripThinkingSegments c9Str) ≠
      stripThinkingSegments c9Str := by decide

/-- C9 (amended): `stripThinkingSegments` is idempotent on every string
whose stripped output contains no thinking tag (stripping can splice a
new tag out of unpaired fragments, and only then does a second pass act). -/
theorem C9_idempotent_on_tagfree_output (s : Str)
    (h : containsThinkTag (stripThinkingSegments s) = false) :
    stripThinkingSegments (stripThinkingSegments s) = stripThinkingSegments s :=
  stripGo_id_of_noTag (stripThinkingSegments s).length (stripThinkingSegments s)
    (Nat.le_refl _) h

/-- Witness for C9 at `"hello <think>hm</think> world"`. -/
theorem C9_idempotent_witness :
    containsThinkTag (stripThinkingSegments c9Clean) = false ∧
      stripThinkingSegments (stripThinkingSegments c9Clean) =
        stripThinkingSegments c9Clean :=
  ⟨by decide, C9_idempotent_on_tagfree_output c9Clean (by decide)⟩

/-- C2 (code bug): with `enforceFinalTag` set and exactly one of the two
final tags present, `extractFinalText` returns `undefined` — the
sanitized text it computed is discarded — so `message_end` publishes the
raw text with the lone tag still in it, not elided.  A well-formed
`<final>…</final>` region is extracted correctly. -/
theorem C2_lone_final_tag_retained :
    extractFinalText c2Lone = none ∧
    hasFinalTag true c2Lone = true ∧
    ((runSubscriber cfgC2 [.messageEnd true c2Lone]).blockLog.map
        (fun e => e.raw)) = [c2Lone] ∧
    ((runSubscriber cfgC2 [.messageEnd true c2Wf]).blockLog.map
        (fun e => e.raw)) = [c2Interior] := by decide

/-- C4: on `auto_compaction_end` with `willRetry`, all accumulated buffers
(`assistantTexts`, `toolMetas`, `toolMetaById`, `deltaBuffer`,
`blockBuffer`) are emptied. -/
theorem C4_retry_resets_buffers (params : SubscriberParams) (s : SubState) :
    (step params s (.autoCompactionEnd true)).assistantTexts = [] ∧
    (step params s (.autoCompactionEnd true)).toolMetas = [] ∧
    (step params s (.autoCompactionEnd true)).toolMetaById = [] ∧
    (step params s (.autoCompactionEnd true)).deltaBuffer = [] ∧
    (step params s (.autoCompactionEnd true)).blockBuffer = [] := by
  refine ⟨?_, ?_, ?_, ?_, ?_⟩ <;> rfl

/-- C6 (counterexample): spec scenario 5 does not hold of the code — the
paragraph separator sits at offset 17, below `minChars = 20`, so the
paragraph break is never taken. -/
theorem C6_spec_chunks_wrong :
    ((runSubscriber cfgC6 trC6).blockLog.map (fun e => e.raw)) ≠
      [c6Expected1, c6Expected2, c6Expected3] := by decide

/-- C6 (amended): on that stream the subscriber emits exactly the chunks
`"Line one is here.\n\nLine two follows"` (whitespace fallback at offset
35) and `"here.\n\nLine three."` (force flush of the remainder). -/
theorem C6_actual_chunks :
    ((runSubscriber cfgC6 trC6).blockLog.map (fun e => e.raw)) =
      [c6Chunk1, c6Chunk2] := by decide

/-- C1 (counterexample): with chunking on, block replies are cut from the
raw buffer and can contain whole thinking tags and thinking content
(`"secret"`), and even the stripped partial stream can contain a spliced
thinking tag. -/
theorem C1_thinking_leaks :
    ((runSubscriber cfgC1 trC1).blockLog.map
        (fun e => containsThinkTag e.text)) = [true, true] ∧
    ((runSubscriber cfgC1 trC1).liveLog.map
        (fun e => containsThinkTag e.text)) = [false, true] ∧
    ((runSubscriber cfgC1 trC1).blockLog.map
        (fun e => strIncludes e.text secretLit)) = [true, false] := by decide

/-- C5 (counterexample): when the block buffer is empty at `message_end`,
the whole message text is published as a single block, unbounded by
`maxChars` (here a 100-character block against `maxChars = 40`). -/
theorem C5_maxchars_violated :
    ((runSubscriber cfgC5 trC5).blockLog.map (fun e => e.raw.length)) = [100] ∧
    effMax ⟨20, 40, none⟩ = 40 := by decide

/-- C8 (counterexample): `lastBlockReplyText` is reset at `message_end`, so
the same chunk can be emitted twice in a row across two assistant
messages. -/
theorem C8_consecutive_duplicates :
    ((runSubscriber cfgC8 trC8).blockLog.map (fun e => e.raw)) =
      [hiLit, hiLit] := by decide

/- Property lemmas for the JS object model. -/

theorem getField_setField_self (k : Str) (v : JVal) (fs : List (Str × JVal)) :
    getField k (setField k v fs) = some v := by
  induction fs with
  | nil => simp [setField, getField]
  | cons p t ih =>
    obtain ⟨k', v'⟩ := p
    by_cases h : k' = k
    · simp [setField, getField, h]
    · simp [setField, getField, h, ih]

theorem getField_setField_ne {k k' : Str} (h : k ≠ k') (v : JVal)
    (fs : List (Str × JVal)) : getField k (setField k' v fs) = getField k fs := by
  induction fs with
  | nil =>
    simp only [setField, getField]
    rw [if_neg (Ne.symm h)]
  | cons p t ih =>
    obtain ⟨a, b⟩ := p
    simp only [setField]
    by_cases h2 : a = k'
    · rw [if_pos h2]
      subst h2
      simp only [getField]
      rw [if_neg (Ne.symm h), if_neg (Ne.symm h)]
    · rw [if_neg h2]
      simp only [getField]
      by_cases h3 : a = k
      · rw [if_pos h3, if_pos h3]
      · rw [if_neg h3, if_neg h3]
        exact ih

theorem getField_removeField_self (k : Str) (fs : List (Str × JVal)) :
    getField k (removeField k fs) = none := by
  induction fs with
  | nil => rfl
  | cons p t ih =>
    obtain ⟨a, b⟩ := p
    simp only [removeField, List.filter_cons] at ih ⊢
    by_cases h2 : a = k
    · simpa [h2] using ih
    · simpa [h2, getField] using ih

theorem getField_removeField_ne {k k' : Str} (h : k ≠ k')
    (fs : List (Str × JVal)) : getField k (removeField k' fs) = getField k fs := by
  induction fs with
  | nil => rfl
  | cons p t ih =>
    obtain ⟨a, b⟩ := p
    simp only [removeField, List.filter_cons] at ih ⊢
    by_cases h2 : a = k'
    · simpa [h2, getField, Ne.symm h] using ih
    · by_cases h3 : a = k
      · simp [h2, h3, getField, h]
      · simpa [h2, getField, h3] using ih

theorem sanitizeImageEntry_data (entry : List (Str × JVal)) :
    getField dataKey (sanitizeImageEntry entry) = none := by
  unfold sanitizeImageEntry
  rw [getField_setField_ne (by decide),
      getField_removeField_ne (by decide)]
  split
  · rw [getField_setField_ne (by decide), getField_removeField_ne (by decide),
        getField_removeField_self]
  · rw [getField_removeField_ne (by decide), getField_removeField_self]

theorem sanitizeImageEntry_omitted (entry : List (Str × JVal)) :
    getField omittedKey (sanitizeImageEntry entry) = some (.jbool true) := by
  unfold sanitizeImageEntry
  rw [getField_setField_self]

theorem sanitizeImageEntry_bytes (entry : List (Str × JVal)) :
    getField bytesKey (sanitizeImageEntry entry) =
      (match getField dataKey entry with
       | some (.jstr s) => if s = [] then none else some (.jnum s.length)
       | _ => none) := by
  unfold sanitizeImageEntry
  rw [getField_setField_ne (by decide), getField_removeField_ne (by decide)]
  split
  case _ bv heq =>
    rw [getField_setField_self, heq]
  case _ heq =>
    rw [getField_removeField_self, heq]

/-- C7 (counterexample): for an image item whose `data` is the empty
string, `bytes` is absent from the sanitized item (the JS truthiness test
`data ? data.length : undefined` drops it), not `0` as the claim's
"original data length" requires. -/
theorem C7_empty_data_bytes_absent :
    itemField bytesKey (firstContentItem (sanitizeToolResult cx7)) = none ∧
    itemField dataKey (firstContentItem (sanitizeToolResult cx7)) = none ∧
    itemField omittedKey (firstContentItem (sanitizeToolResult cx7)) =
      some (.jbool true) ∧
    (none : Option JVal) ≠ some (.jnum 0) := by
  refine ⟨rfl, rfl, rfl, by simp⟩

/-- C7 (amended): `sanitizeToolResult` maps every `content` item; text
items of at most 8000 characters are unchanged and longer ones are cut to
their first 8000 characters plus the `…(truncated)…` marker; image items
lose their `data` field and gain `omitted: true`, with `bytes` equal to
the original data length when `data` is a non-empty string and absent
otherwise — so no sanitized tool result retains base64 image data. -/
theorem C7_tool_results_sanitized :
    (∀ s : Str, s.length ≤ TOOL_RESULT_MAX_CHARS → truncateToolText s = s) ∧
    (∀ s : Str, TOOL_RESULT_MAX_CHARS < s.length →
      truncateToolText s = s.take TOOL_RESULT_MAX_CHARS ++ truncSuffix) ∧
    (∀ record content, getField contentKey record = some (.jarr content) →
      sanitizeToolResult (.jobj record) =
        .jobj (setField contentKey (.jarr (content.map sanitizeToolItem)) record)) ∧
    (∀ entry s, getField typeKey entry = some (.jstr textKey) →
      getField textKey entry = some (.jstr s) →
      sanitizeToolItem (.jobj entry) =
        .jobj (setField textKey (.jstr (truncateToolText s)) entry)) ∧
    (∀ entry, getField typeKey entry = some (.jstr imageLit) →
      sanitizeToolItem (.jobj entry) = .jobj (sanitizeImageEntry entry) ∧
      getField dataKey (sanitizeImageEntry entry) = none ∧
      getField omittedKey (sanitizeImageEntry entry) = some (.jbool true) ∧
      getField bytesKey (sanitizeImageEntry entry) =
        (match getField dataKey entry with
         | some (.jstr s) => if s = [] then none else some (.jnum s.length)
         | _ => none)) := by
  refine ⟨?_, ?_, ?_, ?_, ?_⟩
  · intro s h
    simp [truncateToolText, h]
  · intro s h
    rw [truncateToolText, if_neg (by omega)]
  · intro record content h
    simp only [sanitizeToolResult]
    rw [h]
  · intro entry s h1 h2
    simp only [sanitizeToolItem]
    rw [h1, h2]
    rfl
  · intro entry h
    refine ⟨?_, sanitizeImageEntry_data entry, sanitizeImageEntry_omitted entry,
      sanitizeImageEntry_bytes entry⟩
    simp only [sanitizeToolItem]
    rw [h]
    rfl

/-- Witness for C7 at a concrete image item with non-empty data. -/
theorem C7_witness :
    (getField typeKey cx7b = some (.jstr imageLit)) ∧
    (sanitizeToolItem (.jobj cx7b) = .jobj (sanitizeImageEntry cx7b) ∧
      getField dataKey (sanitizeImageEntry cx7b) = none ∧
      getField omittedKey (sanitizeImageEntry cx7b) = some (.jbool true) ∧
      getField bytesKey (sanitizeImageEntry cx7b) =
        (match getField dataKey cx7b with
         | some (.jstr s) => if s = [] then none else some (.jnum s.length)
         | _ => none)) :=
  ⟨rfl, C7_tool_results_sanitized.2.2.2.2 cx7b rfl⟩

/- Bounds on the break index and drained chunks. -/

theorem effMin_pos (ch : BlockReplyChunking) : 1 ≤ effMin ch :=
  Nat.le_max_left 1 ch.minChars

theorem effMin_le_effMax (ch : BlockReplyChunking) : effMin ch ≤ effMax ch :=
  Nat.le_max_left (effMin ch) ch.maxChars

theorem lastIndexOfSub_lt {pat : Str} (hp : pat ≠ []) (w : Str) :
    lastIndexOfSub pat w < (w.length : Int) := by
  unfold lastIndexOfSub
  split
  case _ i heq =>
    have hi := List.mem_of_mem_getLast? heq
    have := List.mem_filter.mp hi
    obtain ⟨-, hpref⟩ := this
    have hpre : pat <+: w.drop i := List.isPrefixOf_iff_prefix.mp (by
      simpa using hpref)
    have hne : w.drop i ≠ [] := by
      intro hnil
      exact hp (List.prefix_nil.mp (hnil ▸ hpre))
    have : i < w.length := by
      by_contra hge
      exact hne (List.drop_eq_nil_iff.mpr (by omega))
    exact_mod_cast this
  case _ => omega

theorem findSentenceBreak_le (w : Str) (m : Nat) :
    findSentenceBreak w m ≤ (w.length : Int) := by
  unfold findSentenceBreak
  split
  case _ i heq =>
    have hi := List.mem_of_mem_getLast? heq
    have := (List.mem_filter.mp hi).1
    have : i < w.length := List.mem_range.mp this
    omega
  case _ => omega

theorem findWhitespaceBreak_lt (w : Str) (m : Nat) :
    findWhitespaceBreak w m < (w.length : Int) ∨ findWhitespaceBreak w m = -1 := by
  unfold findWhitespaceBreak
  split
  case _ i heq =>
    left
    have hi := List.mem_of_mem_getLast? heq
    have := (List.mem_filter.mp hi).1
    have : i < w.length := List.mem_range.mp this
    omega
  case _ => right; rfl

theorem findWhitespaceBreak_le (w : Str) (m : Nat) :
    findWhitespaceBreak w m ≤ (w.length : Int) := by
  rcases findWhitespaceBreak_lt w m with h | h <;> omega

theorem pickBreakIndex_le_effMax (ch : BlockReplyChunking) (buffer : Str) :
    pickBreakIndex ch buffer ≤ (effMax ch : Int) := by
  simp only [pickBreakIndex]
  set W := buffer.take (Nat.min (effMax ch) buffer.length) with hW
  have hWlen : W.length ≤ effMax ch := by
    rw [hW, List.length_take]
    exact le_trans (Nat.min_le_left _ _) (Nat.min_le_left _ _)
  have h1 := lastIndexOfSub_lt (show nl2Str ≠ [] by decide) W
  have h2 := lastIndexOfSub_lt (show nlStr ≠ [] by decide) W
  have h3 := findSentenceBreak_le W (effMin ch)
  have h4 := findWhitespaceBreak_le W (effMin ch)
  split_ifs <;> omega

theorem pickBreakIndex_pos_min {ch : BlockReplyChunking} {buffer : Str}
    (h : 0 < pickBreakIndex ch buffer) :
    (effMin ch : Int) ≤ pickBreakIndex ch buffer := by
  have hmm : effMin ch ≤ effMax ch := effMin_le_effMax ch
  simp only [pickBreakIndex] at h ⊢
  set W := buffer.take (Nat.min (effMax ch) buffer.length) with hW
  split_ifs at h ⊢ <;> omega

theorem pickBreakIndex_nonpos_len {ch : BlockReplyChunking} {buffer : Str}
    (h : pickBreakIndex ch buffer ≤ 0) : buffer.length < effMax ch := by
  have hmm : effMin ch ≤ effMax ch := effMin_le_effMax ch
  have hm1 : 1 ≤ effMin ch := effMin_pos ch
  simp only [pickBreakIndex] at h
  set W := buffer.take (Nat.min (effMax ch) buffer.length) with hW
  split_ifs at h <;> omega

theorem emitStep_mem {last : Option Str} {acc : List Str} {t c : Str}
    (h : c ∈ (emitStep last acc t).1) :
    c ∈ acc ∨ (c = trimEnd t ∧ c ≠ [] ∧ some c ≠ last) := by
  simp only [emitStep] at h
  split_ifs at h with h1 h2
  · exact .inl h
  · exact .inl h
  · rcases List.mem_append.mp h with h3 | h3
    · exact .inl h3
    · have hc : c = trimEnd t := by simpa using h3
      exact .inr ⟨hc, hc ▸ h1, hc ▸ h2⟩

theorem length_pos_of_ne_nil {c : Str} (h : c ≠ []) : 1 ≤ c.length := by
  cases c with
  | nil => exact absurd rfl h
  | cons a t => simp

theorem trimStart_drop_le (buffer : Str) (k : Nat) :
    (trimStart (buffer.drop k)).length ≤ buffer.length - k := by
  have := trimStart_length_le (buffer.drop k)
  rw [List.length_drop] at this
  exact this

theorem drainGo_chunks_bound :
    ∀ (fuel : Nat) (ch : BlockReplyChunking) (force : Bool) (buffer : Str)
      (last : Option Str) (acc : List Str),
      buffer.length ≤ fuel →
      (∀ c ∈ acc, 1 ≤ c.length ∧ c.length ≤ effMax ch) →
      ∀ c ∈ (drainGo fuel ch force buffer last acc).1,
        1 ≤ c.length ∧ c.length ≤ effMax ch := by
  intro fuel
  induction fuel with
  | zero =>
    intro ch force buffer last acc _ hacc c hc
    exact hacc c hc
  | succ n ih =>
    intro ch force buffer last acc hlen hacc c hc
    simp only [drainGo] at hc
    split_ifs at hc <;> (try dsimp only at hc) <;>
    first
    | exact hacc c hc
    | (rcases emitStep_mem hc with hin | ⟨hceq, hcne, -⟩
       · exact hacc c hin
       · refine ⟨length_pos_of_ne_nil hcne, ?_⟩
         rw [hceq]
         first
         | (have hsmall : buffer.length < effMax ch :=
              pickBreakIndex_nonpos_len (by assumption)
            have := trimEnd_length_le buffer
            omega)
         | (have h1 := trimEnd_length_le
              (buffer.take (pickBreakIndex ch buffer).toNat)
            have h2 : (buffer.take (pickBreakIndex ch buffer).toNat).length ≤
                (pickBreakIndex ch buffer).toNat := by
              rw [List.length_take]; omega
            have h3 : (pickBreakIndex ch buffer).toNat ≤ effMax ch :=
              Int.toNat_le.mpr (pickBreakIndex_le_effMax ch buffer)
            omega))
    | (refine ih ch force _ _ _ ?_ ?_ c hc
       · exact le_trans (trimStart_drop_le buffer _) (by omega)
       · first
         | exact hacc
         | (intro d hd
            rcases emitStep_mem hd with hin | ⟨hdeq, hdne, -⟩
            · exact hacc d hin
            · refine ⟨length_pos_of_ne_nil hdne, ?_⟩
              rw [hdeq]
              have h1 := trimEnd_length_le
                (buffer.take (pickBreakIndex ch buffer).toNat)
              have h2 : (buffer.take (pickBreakIndex ch buffer).toNat).length ≤
                  (pickBreakIndex ch buffer).toNat := by
                rw [List.length_take]; omega
              have h3 : (pickBreakIndex ch buffer).toNat ≤ effMax ch :=
                Int.toNat_le.mpr (pickBreakIndex_le_effMax ch buffer)
              omega))

theorem drainBlockBuffer_chunks_bound {ch : BlockReplyChunking} (force : Bool)
    (buffer : Str) (last : Option Str) :
    ∀ c ∈ (drainBlockBuffer (some ch) force buffer last).1,
      1 ≤ c.length ∧ c.length ≤ effMax ch := by
  intro c hc
  simp only [drainBlockBuffer] at hc
  split_ifs at hc with h1 h2
  · rcases emitStep_mem hc with hin | ⟨hceq, hcne, -⟩
    · simp at hin
    · refine ⟨length_pos_of_ne_nil hcne, ?_⟩
      rw [hceq]
      have := trimEnd_length_le buffer
      omega
  · simp at hc
  · exact drainGo_chunks_bound buffer.length ch force buffer last []
      (Nat.le_refl _) (by simp) c hc

/- The block-log invariant: every logged entry is a guarded payload of its
emitting path. -/

theorem blockPayload_some {params : SubscriberParams} {src : BlockSource}
    {seg : Nat} {c : Str} {e : BlockEntry}
    (h : blockPayload params src seg c = some e) :
    params.hasOnBlockReply = true ∧ e.raw = c ∧
    e.text = (params.splitMedia c).1 ∧ e.mediaUrls = (params.splitMedia c).2 ∧
    e.seg = seg ∧ e.source = src ∧ (e.text ≠ [] ∨ e.mediaUrls ≠ []) := by
  simp only [blockPayload] at h
  split_ifs at h with h1 h2
  · injection h with h
    subst h
    exact ⟨h1, rfl, rfl, rfl, rfl, rfl, h2⟩

theorem applyDeltaChunk_blockLog (s : SubState) (chunk : Str) :
    (applyDeltaChunk s chunk).blockLog = s.blockLog := by
  simp only [applyDeltaChunk]
  split <;> rfl

theorem applyPartialEmit_blockLog (params : SubscriberParams) (s : SubState)
    (next : Str) : (applyPartialEmit params s next).blockLog = s.blockLog := by
  simp only [applyPartialEmit]
  split_ifs <;> rfl

theorem applyDrain_blockLog_good {params : SubscriberParams} {force : Bool}
    {s : SubState} (hInv : ∀ e ∈ s.blockLog, GoodEntry params e) :
    ∀ e ∈ (applyDrain params force s).blockLog, GoodEntry params e := by
  intro e he
  simp only [applyDrain] at he
  rcases List.mem_append.mp he with h | h
  · exact hInv e h
  · obtain ⟨c, hc, hpc⟩ := List.mem_filterMap.mp h
    obtain ⟨hb, hraw, htext, hurls, hseg, hsrc, hguard⟩ := blockPayload_some hpc
    refine ⟨⟨by rw [htext, hraw], by rw [hurls, hraw], hguard, hb⟩, .inl ⟨hsrc, ?_⟩⟩
    intro ch hch
    rw [hch] at hc
    rw [hraw]
    exact drainBlockBuffer_chunks_bound force s.blockBuffer s.lastBlockReplyText c hc

theorem applyTextEndBlockFlush_good {params : SubscriberParams} {s : SubState}
    {next : Str}
    (hnext : ∃ x, next = computeStreamNext params.enforceFinalTag x)
    (hInv : ∀ e ∈ s.blockLog, GoodEntry params e) :
    ∀ e ∈ (applyTextEndBlockFlush params s next).blockLog, GoodEntry params e := by
  intro e he
  simp only [applyTextEndBlockFlush] at he
  split_ifs at he with h1 h2
  · exact applyDrain_blockLog_good hInv e he
  · revert he
    split
    case _ e' hpe =>
      intro he
      dsimp only at he
      rcases List.mem_append.mp he with h | h
      · exact hInv e h
      · have heq : e = e' := by simpa using h
        subst heq
        obtain ⟨hb, hraw, htext, hurls, hseg, hsrc, hguard⟩ := blockPayload_some hpe
        refine ⟨⟨by rw [htext, hraw], by rw [hurls, hraw], hguard, hb⟩,
          .inr (.inl ⟨hsrc, ?_, ?_⟩)⟩
        · rw [hraw]; exact h2.1
        · obtain ⟨x, hx⟩ := hnext
          exact ⟨x, by rw [hraw, hx]⟩
    case _ =>
      intro he
      exact hInv e he
  · exact hInv e he

theorem applyMessageEndBlockFlush_good {params : SubscriberParams} {s : SubState}
    {text : Str}
    (htext : ∃ x, text = computeEndText params.enforceFinalTag x)
    (hInv : ∀ e ∈ s.blockLog, GoodEntry params e) :
    ∀ e ∈ (applyMessageEndBlockFlush params s text).blockLog, GoodEntry params e := by
  intro e he
  simp only [applyMessageEndBlockFlush] at he
  split_ifs at he with h1 h2 h3
  · exact applyDrain_blockLog_good hInv e he
  · revert he
    split
    case _ e' hpe =>
      intro he
      dsimp only at he
      rcases List.mem_append.mp he with h | h
      · exact hInv e h
      · have heq : e = e' := by simpa using h
        subst heq
        obtain ⟨hb, hraw, htext', hurls, hseg, hsrc, hguard⟩ := blockPayload_some hpe
        refine ⟨⟨by rw [htext', hraw], by rw [hurls, hraw], hguard, hb⟩,
          .inr (.inr ⟨hsrc, ?_, ?_⟩)⟩
        · rw [hraw]; exact h1.2.1
        · obtain ⟨x, hx⟩ := htext
          exact ⟨x, by rw [hraw, hx]⟩
    case _ =>
      intro he
      exact hInv e he
  · exact hInv e he
  · exact hInv e he

theorem stepTextUpdate_blockLog_good {params : SubscriberParams} {s : SubState}
    {kind : TextEvtKind} {delta content : Str}
    (hInv : ∀ e ∈ s.blockLog, GoodEntry params e) :
    ∀ e ∈ (stepTextUpdate params s kind delta content).blockLog,
      GoodEntry params e := by
  intro e he
  simp only [stepTextUpdate] at he
  generalize hS1 : applyDeltaChunk s (computeChunk s kind delta content) = s1 at he
  have hInv1 : ∀ e ∈ s1.blockLog, GoodEntry params e := by
    rw [← hS1, applyDeltaChunk_blockLog]
    exact hInv
  generalize hNext :
    computeStreamNext params.enforceFinalTag s1.deltaBuffer = next at he
  have hnextim : ∃ x, next = computeStreamNext params.enforceFinalTag x :=
    ⟨_, hNext.symm⟩
  generalize hS2 : applyPartialEmit params s1 next = s2 at he
  have hInv2 : ∀ e ∈ s2.blockLog, GoodEntry params e := by
    rw [← hS2, applyPartialEmit_blockLog]
    exact hInv1
  generalize hS3 :
    (if params.hasOnBlockReply ∧ params.blockReplyChunking.isSome then
      applyDrain params false s2 else s2) = s3 at he
  have hInv3 : ∀ e ∈ s3.blockLog, GoodEntry params e := by
    rw [← hS3]
    split
    · exact applyDrain_blockLog_good hInv2
    · exact hInv2
  split at he
  · dsimp only at he
    exact applyTextEndBlockFlush_good hnextim hInv3 e he
  · exact hInv3 e he

theorem stepMessageEnd_blockLog_good {params : SubscriberParams} {s : SubState}
    {msgText : Str} (hInv : ∀ e ∈ s.blockLog, GoodEntry params e) :
    ∀ e ∈ (stepMessageEnd params s msgText).blockLog, GoodEntry params e := by
  intro e he
  simp only [stepMessageEnd] at he
  generalize hS1 :
    (if ¬(s.assistantTextBaseline < s.assistantTexts.length) ∧
        computeEndText params.enforceFinalTag msgText ≠ [] then
      { s with assistantTexts := s.assistantTexts ++
          [computeEndText params.enforceFinalTag msgText] }
    else s) = s1 at he
  have hInv1 : ∀ e ∈ s1.blockLog, GoodEntry params e := by
    rw [← hS1]
    split <;> exact hInv
  try dsimp only at he
  exact applyMessageEndBlockFlush_good ⟨msgText, rfl⟩
    (s := { s1 with assistantTextBaseline := s1.assistantTexts.length })
    (by exact hInv1) e he

theorem fireResolve_blockLog (s : SubState) :
    (fireResolve s).blockLog = s.blockLog := by
  simp only [fireResolve]
  split <;> rfl

theorem fireResolve_liveLog (s : SubState) :
    (fireResolve s).liveLog = s.liveLog := by
  simp only [fireResolve]
  split <;> rfl

theorem ensurePromise_blockLog (s : SubState) :
    (ensurePromise s).blockLog = s.blockLog := by
  simp only [ensurePromise]
  split <;> rfl

theorem ensurePromise_liveLog (s : SubState) :
    (ensurePromise s).liveLog = s.liveLog := by
  simp only [ensurePromise]
  split <;> rfl

theorem resolveCompactionRetry_blockLog (s : SubState) :
    (resolveCompactionRetry s).blockLog = s.blockLog := by
  simp only [resolveCompactionRetry]
  split_ifs <;> simp [fireResolve_blockLog]

theorem resolveCompactionRetry_liveLog (s : SubState) :
    (resolveCompactionRetry s).liveLog = s.liveLog := by
  simp only [resolveCompactionRetry]
  split_ifs <;> simp [fireResolve_liveLog]

theorem maybeResolveCompactionWait_blockLog (s : SubState) :
    (maybeResolveCompactionWait s).blockLog = s.blockLog := by
  simp only [maybeResolveCompactionWait]
  split_ifs <;> simp [fireResolve_blockLog]

theorem maybeResolveCompactionWait_liveLog (s : SubState) :
    (maybeResolveCompactionWait s).liveLog = s.liveLog := by
  simp only [maybeResolveCompactionWait]
  split_ifs <;> simp [fireResolve_liveLog]

theorem step_blockLog_good {params : SubscriberParams} {s : SubState}
    (evt : AgentEvt) (hInv : ∀ e ∈ s.blockLog, GoodEntry params e) :
    ∀ e ∈ (step params s evt).blockLog, GoodEntry params e := by
  cases evt with
  | messageUpdate isA kind delta content =>
    simp only [step]
    split
    · exact stepTextUpdate_blockLog_good hInv
    · exact hInv
  | messageEnd isA text =>
    simp only [step]
    split
    · exact stepMessageEnd_blockLog_good hInv
    · exact hInv
  | toolStart id meta => exact hInv
  | toolEnd n id => exact hInv
  | autoCompactionStart =>
    intro e he
    rw [show (step params s .autoCompactionStart).blockLog = s.blockLog from
      (ensurePromise_blockLog _)] at he
    exact hInv e he
  | autoCompactionEnd w =>
    intro e he
    have hlog : (step params s (.autoCompactionEnd w)).blockLog = s.blockLog := by
      simp only [step]
      split
      · rw [show (resetForCompactionRetry (ensurePromise _)).blockLog =
            (ensurePromise _).blockLog from rfl, ensurePromise_blockLog]
      · rw [maybeResolveCompactionWait_blockLog]
    rw [hlog] at he
    exact hInv e he
  | agentStart => exact hInv
  | agentEnd =>
    intro e he
    have hlog : (step params s .agentEnd).blockLog = s.blockLog := by
      simp only [step]
      split
      · rw [resolveCompactionRetry_blockLog]
      · rw [maybeResolveCompactionWait_blockLog]
    rw [hlog] at he
    exact hInv e he

/-- Preservation of a state predicate along a run. -/
theorem runSubscriber_inv (params : SubscriberParams) (P : SubState → Prop)
    (h0 : P initState) (hstep : ∀ s evt, P s → P (step params s evt)) :
    ∀ evts, P (runSubscriber params evts) := by
  have hfold : ∀ (evts : List AgentEvt) (s : SubState),
      P s → P (evts.foldl (step params) s) := by
    intro evts
    induction evts with
    | nil => intro s hs; exact hs
    | cons a t ih =>
      intro s hs
      exact ih _ (hstep s a hs)
  intro evts
  exact hfold evts initState h0

theorem runSubscriber_blockLog_good (params : SubscriberParams)
    (evts : List AgentEvt) :
    ∀ e ∈ (runSubscriber params evts).blockLog, GoodEntry params e :=
  runSubscriber_inv params (fun s => ∀ e ∈ s.blockLog, GoodEntry params e)
    (by intro e he; simp [initState] at he)
    (fun s evt h => step_blockLog_good evt h) evts

/-- C10: every payload passed to `onBlockReply` carries non-empty text or a
non-empty media-URL list — a chunk whose text is empty after media
extraction with no URLs found is never delivered. -/
theorem C10_block_payload_nonempty (params : SubscriberParams)
    (evts : List AgentEvt) :
    ∀ e ∈ (runSubscriber params evts).blockLog,
      e.text ≠ [] ∨ e.mediaUrls ≠ [] :=
  fun e he => (runSubscriber_blockLog_good params evts e he).1.2.2.1

/-- Witness for C10 on the scenario-5 trace. -/
theorem C10_witness :
    w6Block1 ∈ (runSubscriber cfgC6 trC6).blockLog ∧
      (w6Block1.text ≠ [] ∨ w6Block1.mediaUrls ≠ []) :=
  ⟨by decide, C10_block_payload_nonempty cfgC6 trC6 w6Block1 (by decide)⟩

/-- C5 (amended): every block chunk emitted by the chunked drain path has
length in `[1, maxChars]`, and every positive break index is at least
`minChars` (the cut respects `minChars` before trailing-whitespace
trimming); the `message_end` whole-text fallback is exempt. -/
theorem C5_chunk_bounds :
    (∀ (params : SubscriberParams) (ch : BlockReplyChunking),
      params.blockReplyChunking = some ch →
      ∀ (evts : List AgentEvt),
        ∀ e ∈ (runSubscriber params evts).blockLog, e.source = .chunkDrain →
          1 ≤ e.raw.length ∧ e.raw.length ≤ effMax ch) ∧
    (∀ (ch : BlockReplyChunking) (buffer : Str),
      0 < pickBreakIndex ch buffer →
      (effMin ch : Int) ≤ pickBreakIndex ch buffer) := by
  constructor
  · intro params ch hch evts e he hsrc
    have hg := runSubscriber_blockLog_good params evts e he
    rcases hg.2 with ⟨-, hb⟩ | ⟨hs, -⟩ | ⟨hs, -⟩
    · exact hb ch hch
    · rw [hsrc] at hs
      exact absurd hs (by simp)
    · rw [hsrc] at hs
      exact absurd hs (by simp)
  · intro ch buffer h
    exact pickBreakIndex_pos_min h

/-- Witness for C5 on the scenario-5 trace. -/
theorem C5_witness :
    (cfgC6.blockReplyChunking = some ⟨20, 40, some .paragraph⟩) ∧
    w6Block1 ∈ (runSubscriber cfgC6 trC6).blockLog ∧
    w6Block1.source = .chunkDrain ∧
    (1 ≤ w6Block1.raw.length ∧
      w6Block1.raw.length ≤ effMax ⟨20, 40, some .paragraph⟩) :=
  ⟨rfl, by decide, rfl,
    C5_chunk_bounds.1 cfgC6 ⟨20, 40, some .paragraph⟩ rfl trC6 w6Block1
      (by decide) rfl⟩

/- The partial-stream invariant. -/

theorem applyDeltaChunk_liveLog (s : SubState) (chunk : Str) :
    (applyDeltaChunk s chunk).liveLog = s.liveLog := by
  simp only [applyDeltaChunk]
  split <;> rfl

theorem applyTextEndBlockFlush_liveLog (params : SubscriberParams)
    (s : SubState) (next : Str) :
    (applyTextEndBlockFlush params s next).liveLog = s.liveLog := by
  simp only [applyTextEndBlockFlush]
  split_ifs <;> first | rfl | (split <;> rfl)

theorem applyMessageEndBlockFlush_liveLog (params : SubscriberParams)
    (s : SubState) (text : Str) :
    (applyMessageEndBlockFlush params s text).liveLog = s.liveLog := by
  simp only [applyMessageEndBlockFlush]
  split_ifs <;> first | rfl | (split <;> rfl)

theorem applyPartialEmit_liveLog_mem {params : SubscriberParams} {s : SubState}
    {next : Str} {p : LiveEntry}
    (h : p ∈ (applyPartialEmit params s next).liveLog) :
    p ∈ s.liveLog ∨
      (p.raw = next ∧ p.text = (params.splitMedia next).1 ∧
        p.mediaUrls = (params.splitMedia next).2 ∧ next ≠ []) := by
  simp only [applyPartialEmit] at h
  split_ifs at h with h1 h2
  all_goals first
    | exact .inl h
    | (rcases List.mem_append.mp h with h3 | h3
       · exact .inl h3
       · have hp : p =
            ⟨next, (params.splitMedia next).1, (params.splitMedia next).2⟩ := by
           simpa using h3
         subst hp
         exact .inr ⟨rfl, rfl, rfl, h1.1⟩)

theorem stepTextUpdate_liveLog_good {params : SubscriberParams} {s : SubState}
    {kind : TextEvtKind} {delta content : Str}
    (hInv : ∀ p ∈ s.liveLog, GoodLive params p) :
    ∀ p ∈ (stepTextUpdate params s kind delta content).liveLog,
      GoodLive params p := by
  intro p hp
  simp only [stepTextUpdate] at hp
  generalize hS1 : applyDeltaChunk s (computeChunk s kind delta content) = s1 at hp
  have hInv1 : ∀ p ∈ s1.liveLog, GoodLive params p := by
    rw [← hS1, applyDeltaChunk_liveLog]
    exact hInv
  generalize hNext :
    computeStreamNext params.enforceFinalTag s1.deltaBuffer = next at hp
  have hnextim : ∃ x, next = computeStreamNext params.enforceFinalTag x :=
    ⟨_, hNext.symm⟩
  generalize hS2 : applyPartialEmit params s1 next = s2 at hp
  have hInv2 : ∀ p ∈ s2.liveLog, GoodLive params p := by
    intro q hq
    rw [← hS2] at hq
    rcases applyPartialEmit_liveLog_mem hq with h | ⟨hr, ht, hu, hne⟩
    · exact hInv1 q h
    · obtain ⟨x, hx⟩ := hnextim
      refine ⟨by rw [hr]; exact hne, ?_, ?_, ⟨x, by rw [hr, hx]⟩⟩
      · rw [hr]; exact ht
      · rw [hr]; exact hu
  generalize hS3 :
    (if params.hasOnBlockReply ∧ params.blockReplyChunking.isSome then
      applyDrain params false s2 else s2) = s3 at hp
  have hInv3 : ∀ p ∈ s3.liveLog, GoodLive params p := by
    rw [← hS3]
    split
    · exact hInv2
    · exact hInv2
  split at hp
  · dsimp only at hp
    rw [applyTextEndBlockFlush_liveLog] at hp
    exact hInv3 p hp
  · exact hInv3 p hp

theorem stepMessageEnd_liveLog (params : SubscriberParams) (s : SubState)
    (msgText : Str) : (stepMessageEnd params s msgText).liveLog = s.liveLog := by
  simp only [stepMessageEnd]
  rw [applyMessageEndBlockFlush_liveLog]
  split <;> rfl

theorem step_liveLog_good {params : SubscriberParams} {s : SubState}
    (evt : AgentEvt) (hInv : ∀ p ∈ s.liveLog, GoodLive params p) :
    ∀ p ∈ (step params s evt).liveLog, GoodLive params p := by
  cases evt with
  | messageUpdate isA kind delta content =>
    simp only [step]
    split
    · exact stepTextUpdate_liveLog_good hInv
    · exact hInv
  | messageEnd isA text =>
    simp only [step]
    split
    · intro p hp
      rw [stepMessageEnd_liveLog] at hp
      exact hInv p hp
    · exact hInv
  | toolStart id meta => exact hInv
  | toolEnd n id => exact hInv
  | autoCompactionStart =>
    intro p hp
    rw [show (step params s .autoCompactionStart).liveLog = s.liveLog from
      (ensurePromise_liveLog _)] at hp
    exact hInv p hp
  | autoCompactionEnd w =>
    intro p hp
    have hlog : (step params s (.autoCompactionEnd w)).liveLog = s.liveLog := by
      simp only [step]
      split
      · rw [show (resetForCompactionRetry (ensurePromise _)).liveLog =
            (ensurePromise _).liveLog from rfl, ensurePromise_liveLog]
      · rw [maybeResolveCompactionWait_liveLog]
    rw [hlog] at hp
    exact hInv p hp
  | agentStart => exact hInv
  | agentEnd =>
    intro p hp
    have hlog : (step params s .agentEnd).liveLog = s.liveLog := by
      simp only [step]
      split
      · rw [resolveCompactionRetry_liveLog]
      · rw [maybeResolveCompactionWait_liveLog]
    rw [hlog] at hp
    exact hInv p hp

theorem runSubscriber_liveLog_good (params : SubscriberParams)
    (evts : List AgentEvt) :
    ∀ p ∈ (runSubscriber params evts).liveLog, GoodLive params p :=
  runSubscriber_inv params (fun s => ∀ p ∈ s.liveLog, GoodLive params p)
    (by intro p hp; simp [initState] at hp)
    (fun s evt h => step_liveLog_good evt h) evts

/-- C1 (amended): thinking-tag stripping is applied to the whole partial
stream and to the unchunked block flushes — every such text is a
non-empty image of the strip pipeline (`stripThinkingSegments` with
unpaired-tag normalization, final-tag extraction and trimming per the
configuration) over accumulated assistant text.  Chunk-drained block
replies are cut from the raw buffer and are not stripped. -/
theorem C1_strip_pipeline (params : SubscriberParams) (evts : List AgentEvt) :
    (∀ p ∈ (runSubscriber params evts).liveLog,
      p.raw ≠ [] ∧ ∃ x, p.raw = computeStreamNext params.enforceFinalTag x) ∧
    (∀ e ∈ (runSubscriber params evts).blockLog, e.source = .textEndFlush →
      e.raw ≠ [] ∧ ∃ x, e.raw = computeStreamNext params.enforceFinalTag x) ∧
    (∀ e ∈ (runSubscriber params evts).blockLog, e.source = .messageEndFlush →
      e.raw ≠ [] ∧ ∃ x, e.raw = computeEndText params.enforceFinalTag x) := by
  refine ⟨?_, ?_, ?_⟩
  · intro p hp
    have hg := runSubscriber_liveLog_good params evts p hp
    exact ⟨hg.1, hg.2.2.2⟩
  · intro e he hsrc
    have hg := runSubscriber_blockLog_good params evts e he
    rcases hg.2 with ⟨hs, -⟩ | ⟨-, hne, hx⟩ | ⟨hs, -⟩
    · rw [hsrc] at hs
      exact absurd hs (by simp)
    · exact ⟨hne, hx⟩
    · rw [hsrc] at hs
      exact absurd hs (by simp)
  · intro e he hsrc
    have hg := runSubscriber_blockLog_good params evts e he
    rcases hg.2 with ⟨hs, -⟩ | ⟨hs, -⟩ | ⟨-, hne, hx⟩
    · rw [hsrc] at hs
      exact absurd hs (by simp)
    · rw [hsrc] at hs
      exact absurd hs (by simp)
    · exact ⟨hne, hx⟩

/-- Witness for C1 on the scenario-5 trace. -/
theorem C1_witness :
    w6Live1 ∈ (runSubscriber cfgC6 trC6).liveLog ∧
      (w6Live1.raw ≠ [] ∧
        ∃ x, w6Live1.raw = computeStreamNext cfgC6.enforceFinalTag x) :=
  ⟨by decide, (C1_strip_pipeline cfgC6 trC6).1 w6Live1 (by decide)⟩

/- The compaction-wait invariant. -/

theorem applyDrain_promiseView (params : SubscriberParams) (force : Bool)
    (s : SubState) : promiseView (applyDrain params force s) = promiseView s := rfl

theorem applyDeltaChunk_promiseView (s : SubState) (chunk : Str) :
    promiseView (applyDeltaChunk s chunk) = promiseView s := by
  simp only [applyDeltaChunk]
  split <;> rfl

theorem applyPartialEmit_promiseView (params : SubscriberParams) (s : SubState)
    (next : Str) : promiseView (applyPartialEmit params s next) = promiseView s := by
  simp only [applyPartialEmit]
  split_ifs <;> rfl

theorem applyTextEndBlockFlush_promiseView (params : SubscriberParams)
    (s : SubState) (next : Str) :
    promiseView (applyTextEndBlockFlush params s next) = promiseView s := by
  simp only [applyTextEndBlockFlush]
  split_ifs <;> first | rfl | (split <;> rfl)

theorem applyMessageEndBlockFlush_promiseView (params : SubscriberParams)
    (s : SubState) (text : Str) :
    promiseView (applyMessageEndBlockFlush params s text) = promiseView s := by
  simp only [applyMessageEndBlockFlush]
  split_ifs <;> first | rfl | (split <;> rfl)

theorem stepTextUpdate_promiseView (params : SubscriberParams) (s : SubState)
    (kind : TextEvtKind) (delta content : Str) :
    promiseView (stepTextUpdate params s kind delta content) = promiseView s := by
  have hbase : promiseView (applyPartialEmit params
      (applyDeltaChunk s (computeChunk s kind delta content))
      (computeStreamNext params.enforceFinalTag
        (applyDeltaChunk s (computeChunk s kind delta content)).deltaBuffer)) =
      promiseView s :=
    (applyPartialEmit_promiseView _ _ _).trans (applyDeltaChunk_promiseView _ _)
  simp only [stepTextUpdate]
  split
  · exact (applyTextEndBlockFlush_promiseView _ _ _).trans (by
      split
      · exact (applyDrain_promiseView _ _ _).trans hbase
      · exact hbase)
  · split
    · exact (applyDrain_promiseView _ _ _).trans hbase
    · exact hbase

theorem stepMessageEnd_promiseView (params : SubscriberParams) (s : SubState)
    (msgText : Str) :
    promiseView (stepMessageEnd params s msgText) = promiseView s := by
  simp only [stepMessageEnd]
  exact (applyMessageEndBlockFlush_promiseView _ _ _).trans (by split <;> rfl)

theorem resolveInv_of_promiseView {s t : SubState}
    (h : promiseView t = promiseView s) (hs : ResolveInv s) : ResolveInv t := by
  simp only [promiseView] at h
  injection h with e1 h'
  injection h' with e2 e3
  unfold ResolveInv
  rw [e1, e2, e3]
  exact hs

theorem fireResolve_resolveInv {s : SubState}
    (hp : s.pendingCompactionRetry = 0) (hf : s.compactionInFlight = false)
    (h : ResolveInv s) : ResolveInv (fireResolve s) := by
  obtain ⟨h1, h2, h3, h4⟩ := h
  simp only [fireResolve]
  split
  case _ ha =>
    refine ⟨?_, ?_, ?_, ?_⟩
    · intro r hr
      rcases List.mem_append.mp hr with hin | hin
      · exact h1 r hin
      · have : r = ⟨s.pendingCompactionRetry, s.compactionInFlight, s.promiseGen⟩ := by
          simpa using hin
        subst this
        exact ⟨hp, hf⟩
    · intro r hr
      rcases List.mem_append.mp hr with hin | hin
      · exact h2 r hin
      · have : r = ⟨s.pendingCompactionRetry, s.compactionInFlight, s.promiseGen⟩ := by
          simpa using hin
        subst this
        exact Nat.le_refl _
    · intro hcontra
      exact absurd hcontra (by simp)
    · rw [List.pairwise_append]
      refine ⟨h4, by simp, ?_⟩
      intro a hin b hb
      have : b = ⟨s.pendingCompactionRetry, s.compactionInFlight, s.promiseGen⟩ := by
        simpa using hb
      subst this
      exact Nat.ne_of_lt (h3 ha a hin)
  case _ ha =>
    refine ⟨h1, h2, ?_, h4⟩
    intro hcontra
    exact absurd hcontra (by simp)

theorem maybeResolveCompactionWait_resolveInv {s : SubState}
    (h : ResolveInv s) : ResolveInv (maybeResolveCompactionWait s) := by
  simp only [maybeResolveCompactionWait]
  split_ifs with hc
  · exact fireResolve_resolveInv hc.1 (by simpa using hc.2) h
  · exact h

theorem resolveCompactionRetry_resolveInv {s : SubState}
    (h : ResolveInv s) : ResolveInv (resolveCompactionRetry s) := by
  simp only [resolveCompactionRetry]
  split_ifs with h0 hc
  · exact h
  · exact fireResolve_resolveInv hc.1 (by simpa using hc.2) h
  · exact h

theorem ensurePromise_resolveInv {s : SubState} (h : ResolveInv s) :
    ResolveInv (ensurePromise s) := by
  obtain ⟨h1, h2, h3, h4⟩ := h
  simp only [ensurePromise]
  split
  · exact ⟨h1, h2, h3, h4⟩
  · refine ⟨h1, ?_, ?_, h4⟩
    · intro r hr
      exact Nat.le_succ_of_le (h2 r hr)
    · intro _ r hr
      exact Nat.lt_succ_of_le (h2 r hr)

theorem step_resolveInv {params : SubscriberParams} {s : SubState}
    (evt : AgentEvt) (h : ResolveInv s) : ResolveInv (step params s evt) := by
  cases evt with
  | messageUpdate isA kind delta content =>
    simp only [step]
    split
    · exact resolveInv_of_promiseView (stepTextUpdate_promiseView _ _ _ _ _) h
    · exact h
  | messageEnd isA text =>
    simp only [step]
    split
    · exact resolveInv_of_promiseView (stepMessageEnd_promiseView _ _ _) h
    · exact h
  | toolStart id meta => exact h
  | toolEnd n id => exact h
  | autoCompactionStart => exact ensurePromise_resolveInv h
  | autoCompactionEnd w =>
    simp only [step]
    split
    · exact ensurePromise_resolveInv h
    · exact maybeResolveCompactionWait_resolveInv h
  | agentStart => exact h
  | agentEnd =>
    simp only [step]
    split
    · exact resolveCompactionRetry_resolveInv h
    · exact maybeResolveCompactionWait_resolveInv h

theorem runSubscriber_resolveInv (params : SubscriberParams)
    (evts : List AgentEvt) : ResolveInv (runSubscriber params evts) :=
  runSubscriber_inv params ResolveInv
    ⟨by intro r hr; simp [initState] at hr,
     by intro r hr; simp [initState] at hr,
     by intro _ r hr; simp [initState] at hr,
     by simp [initState]⟩
    (fun _ evt h => step_resolveInv evt h) evts

/-- C3: every firing of the compaction-wait resolver happens in a state with
`pendingCompactionRetry = 0` and no compaction in flight; promise
generations resolve pairwise-distinctly (each waiter's promise completes
at most once); and on the spec's compaction-retry scenario the wait
resolves exactly once, at generation 1. -/
theorem C3_compaction_wait :
    (∀ (params : SubscriberParams) (evts : List AgentEvt),
      ∀ r ∈ (runSubscriber params evts).resolveLog,
        r.pendingAt = 0 ∧ r.inFlightAt = false) ∧
    (∀ (params : SubscriberParams) (evts : List AgentEvt),
      List.Pairwise (fun a b => a.gen ≠ b.gen)
        (runSubscriber params evts).resolveLog) ∧
    (runSubscriber cfgC3 trC3).resolveLog = [w3Resolve] := by
  refine ⟨?_, ?_, by decide⟩
  · intro params evts
    exact (runSubscriber_resolveInv params evts).1
  · intro params evts
    exact (runSubscriber_resolveInv params evts).2.2.2

/-- Witness for C3 on the compaction-retry scenario. -/
theorem C3_witness :
    w3Resolve ∈ (runSubscriber cfgC3 trC3).resolveLog ∧
      (w3Resolve.pendingAt = 0 ∧ w3Resolve.inFlightAt = false) :=
  ⟨by decide, C3_compaction_wait.1 cfgC3 trC3 w3Resolve (by decide)⟩

/- The dedup chain produced by a drain. -/

theorem emitStep_spec (last : Option Str) (acc : List Str) (t : Str) :
    emitStep last acc t = (acc, last) ∨
    (emitStep last acc t = (acc ++ [trimEnd t], some (trimEnd t)) ∧
      trimEnd t ≠ [] ∧ some (trimEnd t) ≠ last) := by
  simp only [emitStep]
  split_ifs with h1 h2
  · exact .inl rfl
  · exact .inl rfl
  · exact .inr ⟨rfl, h1, h2⟩

theorem chainFrom_append {last mid last' : Option Str} {l1 l2 : List Str}
    (h1 : ChainFrom last l1 mid) (h2 : ChainFrom mid l2 last') :
    ChainFrom last (l1 ++ l2) last' := by
  induction l1 generalizing last with
  | nil =>
    simp only [ChainFrom] at h1
    simpa [h1] using h2
  | cons c t ih =>
    obtain ⟨ha, hb, hc⟩ := h1
    exact ⟨ha, hb, ih hc⟩

theorem exists_chain_cons {c : Str} {last : Option Str} {acc : List Str}
    (hne : c ≠ []) (hlast : some c ≠ last)
    {r : List Str × Str × Option Str}
    (h : ∃ new, r.1 = (acc ++ [c]) ++ new ∧ ChainFrom (some c) new r.2.2) :
    ∃ new, r.1 = acc ++ new ∧ ChainFrom last new r.2.2 := by
  obtain ⟨new, h1, h2⟩ := h
  exact ⟨c :: new, by simpa using h1, ⟨hlast, hne, h2⟩⟩

theorem drainGo_chain :
    ∀ (fuel : Nat) (ch : BlockReplyChunking) (force : Bool) (buffer : Str)
      (last : Option Str) (acc : List Str),
      ∃ new, (drainGo fuel ch force buffer last acc).1 = acc ++ new ∧
        ChainFrom last new (drainGo fuel ch force buffer last acc).2.2 := by
  intro fuel
  induction fuel with
  | zero =>
    intro ch force buffer last acc
    refine ⟨[], ?_, ?_⟩
    · simp [drainGo]
    · simp [drainGo, ChainFrom]
  | succ n ih =>
    intro ch force buffer last acc
    simp only [drainGo]
    split_ifs
    all_goals first
    | (refine ⟨[], ?_, ?_⟩
       · simp
       · simp [ChainFrom])
    | (rcases emitStep_spec last acc buffer with he | ⟨he, hne, hlast⟩
       · refine ⟨[], ?_, ?_⟩
         · simp [he]
         · simp [he, ChainFrom]
       · refine ⟨[trimEnd buffer], ?_, ?_⟩
         · simp [he]
         · simp only [he]
           exact ⟨hlast, hne, rfl⟩)
    | (rcases emitStep_spec last acc
          (buffer.take (pickBreakIndex ch buffer).toNat) with he | ⟨he, hne, hlast⟩
       · refine ⟨[], ?_, ?_⟩
         · simp [he]
         · simp [he, ChainFrom]
       · refine ⟨[trimEnd (buffer.take (pickBreakIndex ch buffer).toNat)], ?_, ?_⟩
         · simp [he]
         · simp only [he]
           exact ⟨hlast, hne, rfl⟩)
    | exact ih ch force _ last acc
    | (rcases emitStep_spec last acc
          (buffer.take (pickBreakIndex ch buffer).toNat) with he | ⟨he, hne, hlast⟩
       · simp only [he]
         exact ih ch force _ last acc
       · simp only [he]
         exact exists_chain_cons hne hlast (ih ch force _ _ _))

theorem drainBlockBuffer_chain (chOpt : Option BlockReplyChunking) (force : Bool)
    (buffer : Str) (last : Option Str) :
    ∃ new, (drainBlockBuffer chOpt force buffer last).1 = new ∧
      ChainFrom last new (drainBlockBuffer chOpt force buffer last).2.2 := by
  match chOpt with
  | none => exact ⟨[], rfl, rfl⟩
  | some ch =>
    simp only [drainBlockBuffer]
    split_ifs with h1 h2
    · rcases emitStep_spec last [] buffer with he | ⟨he, hne, hlast⟩
      · refine ⟨[], ?_, ?_⟩
        · simp [he]
        · simp [he, ChainFrom]
      · refine ⟨[trimEnd buffer], ?_, ?_⟩
        · simp [he]
        · simp only [he]
          exact ⟨hlast, hne, rfl⟩
    · exact ⟨[], rfl, rfl⟩
    · obtain ⟨new, hn1, hn2⟩ := drainGo_chain buffer.length ch force buffer last []
      exact ⟨new, by simpa using hn1, hn2⟩

theorem chainFrom_nonempty :
    ∀ {l : List Str} {last last' : Option Str}, ChainFrom last l last' →
      ∀ c ∈ l, c ≠ [] := by
  intro l
  induction l with
  | nil => intro last last' _ c hc; simp at hc
  | cons a t ih =>
    intro last last' h c hc
    obtain ⟨h1, h2, h3⟩ := h
    rcases List.mem_cons.mp hc with rfl | hc
    · exact h2
    · exact ih h3 c hc

theorem chainFrom_last :
    ∀ {l : List Str} {last last' : Option Str}, ChainFrom last l last' →
      (l = [] ∧ last' = last) ∨ ∃ c, l.getLast? = some c ∧ last' = some c := by
  intro l
  induction l with
  | nil => intro last last' h; exact .inl ⟨rfl, h⟩
  | cons a t ih =>
    intro last last' h
    obtain ⟨h1, h2, h3⟩ := h
    rcases ih h3 with ⟨hnil, hl⟩ | ⟨c, hc, hl⟩
    · subst hnil
      exact .inr ⟨a, rfl, hl⟩
    · right
      refine ⟨c, ?_, hl⟩
      cases t with
      | nil => simp at hc
      | cons b u => rw [List.getLast?_cons_cons]; exact hc

theorem chainFrom_entries_chain (src : BlockSource) (seg : Nat)
    (f : Str → Str × List Str) :
    ∀ {l : List Str} {last last' : Option Str}, ChainFrom last l last' →
      List.Chain' SameSegNe
        (l.map (fun c => (⟨c, (f c).1, (f c).2, seg, src⟩ : BlockEntry))) := by
  intro l
  induction l with
  | nil => intro last last' _; simp
  | cons a t ih =>
    intro last last' h
    obtain ⟨h1, h2, h3⟩ := h
    cases t with
    | nil => simp
    | cons b u =>
      obtain ⟨hb1, hb2, hb3⟩ := h3
      rw [List.map_cons, List.map_cons, List.chain'_cons]
      refine ⟨?_, ?_⟩
      · intro _ heq
        have hab : a = b := heq
        exact hb1 (by rw [hab])
      · exact ih ⟨hb1, hb2, hb3⟩

theorem blockChainInv_of_view {params : SubscriberParams} {s t : SubState}
    (hview : blockView t = blockView s) (h : BlockChainInv params s) :
    BlockChainInv params t := by
  simp only [blockView] at hview
  injection hview with e1 h'
  injection h' with e2 e3
  unfold BlockChainInv
  rw [e1, e2, e3]
  exact h

theorem blockChainInv_append {params : SubscriberParams} {s : SubState}
    (h : BlockChainInv params s) {e : BlockEntry}
    (hb : params.hasOnBlockReply = true)
    (heraw : e.raw ≠ []) (heseg : e.seg = s.seg)
    (hne : some e.raw ≠ s.lastBlockReplyText) :
    ∀ {t : SubState}, t.blockLog = s.blockLog ++ [e] →
      t.lastBlockReplyText = some e.raw → t.seg = s.seg →
      BlockChainInv params t := by
  obtain ⟨h1, h2, h3, h4, h5⟩ := h
  intro t hlog hlast hseg
  refine ⟨?_, ?_, ?_, ?_, ?_⟩
  · intro hf
    rw [hb] at hf
    cases hf
  · intro x hx
    rw [hlog] at hx
    rcases List.mem_append.mp hx with hin | hin
    · exact h2 x hin
    · have : x = e := by simpa using hin
      subst this
      exact heraw
  · intro x hx
    rw [hlog] at hx
    rw [hseg]
    rcases List.mem_append.mp hx with hin | hin
    · exact h3 x hin
    · have : x = e := by simpa using hin
      subst this
      exact Nat.le_of_eq heseg
  · rw [hlog, List.chain'_append]
    refine ⟨h4, by simp, ?_⟩
    intro x hx y hy
    have hye : e = y := by simpa using hy
    subst hye
    intro hxe
    have hxseg : x.seg = s.seg := by rw [hxe, heseg]
    have := h5 x hx hxseg
    intro hreq
    rw [hreq] at this
    exact hne (this ▸ rfl)
  · intro x hx hxseg
    rw [hlog, List.getLast?_concat] at hx
    have hxe : e = x := by simpa using hx
    subst hxe
    rw [hlast]

theorem blockChainInv_bump {params : SubscriberParams} {s : SubState}
    (h : BlockChainInv params s) :
    ∀ {t : SubState}, t.blockLog = s.blockLog → t.lastBlockReplyText = none →
      t.seg = s.seg + 1 → BlockChainInv params t := by
  obtain ⟨h1, h2, h3, h4, h5⟩ := h
  intro t hlog hlast hseg
  refine ⟨?_, ?_, ?_, ?_, ?_⟩
  · intro hf
    rw [hlog]
    exact h1 hf
  · intro x hx
    rw [hlog] at hx
    exact h2 x hx
  · intro x hx
    rw [hlog] at hx
    rw [hseg]
    exact Nat.le_succ_of_le (h3 x hx)
  · rw [hlog]
    exact h4
  · intro x hx hxseg
    rw [hlog] at hx
    have hle := h3 x (List.mem_of_mem_getLast? hx)
    rw [hxseg, hseg] at hle
    omega

theorem blockPayload_eq_some {params : SubscriberParams}
    (hb : params.hasOnBlockReply = true)
    (hgood : SplitKeepsContent params.splitMedia) (src : BlockSource)
    (seg : Nat) {c : Str} (hc : c ≠ []) :
    blockPayload params src seg c =
      some ⟨c, (params.splitMedia c).1, (params.splitMedia c).2, seg, src⟩ := by
  simp only [blockPayload, hb, if_true]
  rw [if_pos (hgood c hc)]

theorem filterMap_blockPayload_map {params : SubscriberParams}
    (hb : params.hasOnBlockReply = true)
    (hgood : SplitKeepsContent params.splitMedia) (src : BlockSource)
    (seg : Nat) :
    ∀ (l : List Str), (∀ c ∈ l, c ≠ []) →
      l.filterMap (blockPayload params src seg) =
        l.map (fun c =>
          (⟨c, (params.splitMedia c).1, (params.splitMedia c).2, seg, src⟩ :
            BlockEntry)) := by
  intro l
  induction l with
  | nil => intro _; rfl
  | cons c t ih =>
    intro hl
    rw [List.filterMap_cons, List.map_cons,
      blockPayload_eq_some hb hgood src seg (hl c (List.mem_cons_self c t)),
      ih (fun d hd => hl d (List.mem_cons_of_mem c hd))]

theorem filterMap_blockPayload_nil {params : SubscriberParams}
    (hb : params.hasOnBlockReply = false) (src : BlockSource) (seg : Nat)
    (l : List Str) : l.filterMap (blockPayload params src seg) = [] := by
  induction l with
  | nil => rfl
  | cons c t ih =>
    rw [List.filterMap_cons]
    have hnone : blockPayload params src seg c = none := by
      simp [blockPayload, hb]
    rw [hnone, ih]

theorem applyDrain_blockChainInv {params : SubscriberParams}
    (hgood : SplitKeepsContent params.splitMedia) (force : Bool) {s : SubState}
    (h : BlockChainInv params s) :
    BlockChainInv params (applyDrain params force s) := by
  obtain ⟨new, hn1, hn2⟩ := drainBlockBuffer_chain params.blockReplyChunking
    force s.blockBuffer s.lastBlockReplyText
  obtain ⟨h1, h2, h3, h4, h5⟩ := h
  by_cases hb : params.hasOnBlockReply = true
  · have hnonempty := chainFrom_nonempty hn2
    have hmap := filterMap_blockPayload_map hb hgood .chunkDrain s.seg new hnonempty
    refine ⟨?_, ?_, ?_, ?_, ?_⟩
    · intro hf
      rw [hb] at hf
      cases hf
    · intro x hx
      simp only [applyDrain, hn1, hmap] at hx
      rcases List.mem_append.mp hx with hin | hin
      · exact h2 x hin
      · obtain ⟨c, hcin, hce⟩ := List.mem_map.mp hin
        rw [← hce]
        exact hnonempty c hcin
    · intro x hx
      simp only [applyDrain, hn1, hmap] at hx ⊢
      rcases List.mem_append.mp hx with hin | hin
      · exact h3 x hin
      · obtain ⟨c, hcin, hce⟩ := List.mem_map.mp hin
        rw [← hce]
    · show List.Chain' SameSegNe (applyDrain params force s).blockLog
      simp only [applyDrain, hn1, hmap]
      rw [List.chain'_append]
      refine ⟨h4, chainFrom_entries_chain .chunkDrain s.seg params.splitMedia hn2, ?_⟩
      intro x hx y hy
      cases new with
      | nil => simp at hy
      | cons c0 rest =>
        have hyc : y = ⟨c0, (params.splitMedia c0).1, (params.splitMedia c0).2,
            s.seg, .chunkDrain⟩ := by
          simpa using hy.symm
        subst hyc
        intro hxseg hreq
        have hlastx : s.lastBlockReplyText = some x.raw := h5 x hx hxseg
        have hreq' : x.raw = c0 := hreq
        exact hn2.1 (by rw [← hreq']; exact hlastx.symm)
    · intro x hx hxseg
      rcases chainFrom_last hn2 with ⟨hnil, hl⟩ | ⟨c, hc, hl⟩
      · subst hnil
        simp only [applyDrain, hn1, hmap, List.map_nil, List.append_nil] at hx
        have hlast' : (applyDrain params force s).lastBlockReplyText =
            s.lastBlockReplyText := by
          simp only [applyDrain]
          exact hl
        rw [hlast']
        exact h5 x hx hxseg
      · have hnewne : new ≠ [] := by
          intro hcontra
          rw [hcontra] at hc
          simp at hc
        simp only [applyDrain, hn1, hmap] at hx
        rw [List.getLast?_append_of_ne_nil _ (by
            intro hcontra
            exact hnewne (List.map_eq_nil_iff.mp hcontra)),
          List.getLast?_map, hc] at hx
        have hxc : (⟨c, (params.splitMedia c).1, (params.splitMedia c).2,
            s.seg, .chunkDrain⟩ : BlockEntry) = x := by
          simpa using hx
        subst hxc
        show (applyDrain params force s).lastBlockReplyText = some c
        simp only [applyDrain]
        exact hl
  · have hbf : params.hasOnBlockReply = false := by
      cases hh : params.hasOnBlockReply
      · rfl
      · exact absurd hh hb
    have hlognil : s.blockLog = [] := h1 hbf
    have hfm := filterMap_blockPayload_nil hbf .chunkDrain s.seg new
    refine ⟨?_, ?_, ?_, ?_, ?_⟩
    · intro _
      simp only [applyDrain, hn1, hfm, hlognil, List.append_nil]
    · intro x hx
      simp only [applyDrain, hn1, hfm, hlognil, List.append_nil] at hx
      simp at hx
    · intro x hx
      simp only [applyDrain, hn1, hfm, hlognil, List.append_nil] at hx
      simp at hx
    · show List.Chain' SameSegNe (applyDrain params force s).blockLog
      simp only [applyDrain, hn1, hfm, hlognil, List.append_nil]
      simp
    · intro x hx
      simp only [applyDrain, hn1, hfm, hlognil, List.append_nil] at hx
      simp at hx

theorem applyTextEndBlockFlush_blockChainInv {params : SubscriberParams}
    (hgood : SplitKeepsContent params.splitMedia) (next : Str) {s : SubState}
    (h : BlockChainInv params s) :
    BlockChainInv params (applyTextEndBlockFlush params s next) := by
  simp only [applyTextEndBlockFlush]
  split_ifs with hA hB
  · exact applyDrain_blockChainInv hgood true h
  · split
    case _ e' hpe =>
      obtain ⟨hb, hraw, htext, hurls, hseg, hsrc, hguard⟩ := blockPayload_some hpe
      refine blockChainInv_append (e := e') h hb ?_ ?_ ?_ ?_ ?_ ?_
      · rw [hraw]
        exact hB.1
      · exact hseg
      · rw [hraw]
        exact hB.2
      · rfl
      · rw [hraw]
      · rfl
    case _ hpe =>
      by_cases hb : params.hasOnBlockReply = true
      · exfalso
        rw [blockPayload_eq_some hb hgood .textEndFlush _ hB.1] at hpe
        cases hpe
      · have hbf : params.hasOnBlockReply = false := by
          cases hh : params.hasOnBlockReply
          · rfl
          · exact absurd hh hb
        obtain ⟨h1, h2, h3, h4, h5⟩ := h
        have hlognil := h1 hbf
        refine ⟨fun _ => hlognil, ?_, ?_, ?_, ?_⟩
        · intro x hx
          have hx' : x ∈ s.blockLog := hx
          rw [hlognil] at hx'
          simp at hx'
        · intro x hx
          have hx' : x ∈ s.blockLog := hx
          rw [hlognil] at hx'
          simp at hx'
        · show List.Chain' SameSegNe s.blockLog
          exact h4
        · intro x hx
          have hx' : s.blockLog.getLast? = some x := hx
          rw [hlognil] at hx'
          simp at hx'
  · exact h

theorem applyMessageEndBlockFlush_blockChainInv {params : SubscriberParams}
    (hgood : SplitKeepsContent params.splitMedia) (text : Str) {s : SubState}
    (h : BlockChainInv params s) :
    BlockChainInv params (applyMessageEndBlockFlush params s text) := by
  simp only [applyMessageEndBlockFlush]
  split_ifs with hA hB hC
  · exact applyDrain_blockChainInv hgood true h
  · split
    case _ e' hpe =>
      obtain ⟨hb, hraw, htext, hurls, hseg, hsrc, hguard⟩ := blockPayload_some hpe
      refine blockChainInv_append (e := e') h hb ?_ ?_ ?_ ?_ ?_ ?_
      · rw [hraw]
        exact hA.2.1
      · exact hseg
      · rw [hraw]
        exact hC
      · rfl
      · rw [hraw]
      · rfl
    case _ hpe =>
      exfalso
      rw [blockPayload_eq_some hA.2.2 hgood .messageEndFlush _ hA.2.1] at hpe
      cases hpe
  · exact h
  · exact h

theorem applyDeltaChunk_blockView (s : SubState) (chunk : Str) :
    blockView (applyDeltaChunk s chunk) = blockView s := by
  simp only [applyDeltaChunk]
  split <;> rfl

theorem applyPartialEmit_blockView (params : SubscriberParams) (s : SubState)
    (next : Str) : blockView (applyPartialEmit params s next) = blockView s := by
  simp only [applyPartialEmit]
  split_ifs <;> rfl

theorem ensurePromise_blockView (s : SubState) :
    blockView (ensurePromise s) = blockView s := by
  simp only [ensurePromise]
  split <;> rfl

theorem fireResolve_blockView (s : SubState) :
    blockView (fireResolve s) = blockView s := by
  simp only [fireResolve]
  split <;> rfl

theorem resolveCompactionRetry_blockView (s : SubState) :
    blockView (resolveCompactionRetry s) = blockView s := by
  simp only [resolveCompactionRetry]
  split_ifs <;> (try rw [fireResolve_blockView]) <;> rfl

theorem maybeResolveCompactionWait_blockView (s : SubState) :
    blockView (maybeResolveCompactionWait s) = blockView s := by
  simp only [maybeResolveCompactionWait]
  split_ifs <;> (try rw [fireResolve_blockView]) <;> rfl

theorem stepTextUpdate_blockChainInv {params : SubscriberParams} {s : SubState}
    {kind : TextEvtKind} {delta content : Str}
    (hgood : SplitKeepsContent params.splitMedia) (h : BlockChainInv params s) :
    BlockChainInv params (stepTextUpdate params s kind delta content) := by
  simp only [stepTextUpdate]
  generalize hS1 : applyDeltaChunk s (computeChunk s kind delta content) = s1
  have h1 : BlockChainInv params s1 := by
    rw [← hS1]
    exact blockChainInv_of_view (applyDeltaChunk_blockView _ _) h
  generalize hNext : computeStreamNext params.enforceFinalTag s1.deltaBuffer = next
  generalize hS2 : applyPartialEmit params s1 next = s2
  have h2 : BlockChainInv params s2 := by
    rw [← hS2]
    exact blockChainInv_of_view (applyPartialEmit_blockView _ _ _) h1
  generalize hS3 :
    (if params.hasOnBlockReply ∧ params.blockReplyChunking.isSome then
      applyDrain params false s2 else s2) = s3
  have h3 : BlockChainInv params s3 := by
    rw [← hS3]
    split
    · exact applyDrain_blockChainInv hgood false h2
    · exact h2
  split
  · exact blockChainInv_of_view rfl
      (applyTextEndBlockFlush_blockChainInv hgood next h3)
  · exact h3

theorem stepMessageEnd_blockChainInv {params : SubscriberParams} {s : SubState}
    {msgText : Str} (hgood : SplitKeepsContent params.splitMedia)
    (h : BlockChainInv params s) :
    BlockChainInv params (stepMessageEnd params s msgText) := by
  simp only [stepMessageEnd]
  generalize hS1 :
    (if ¬(s.assistantTextBaseline < s.assistantTexts.length) ∧
        computeEndText params.enforceFinalTag msgText ≠ [] then
      { s with assistantTexts := s.assistantTexts ++
          [computeEndText params.enforceFinalTag msgText] }
    else s) = s1
  have h1 : BlockChainInv params s1 := by
    rw [← hS1]
    split
    · exact blockChainInv_of_view rfl h
    · exact h
  have h2 : BlockChainInv params
      { s1 with assistantTextBaseline := s1.assistantTexts.length } :=
    blockChainInv_of_view rfl h1
  have h3 := applyMessageEndBlockFlush_blockChainInv hgood
    (computeEndText params.enforceFinalTag msgText) h2
  exact blockChainInv_bump h3 rfl rfl rfl

theorem step_blockChainInv {params : SubscriberParams} {s : SubState}
    (hgood : SplitKeepsContent params.splitMedia) (evt : AgentEvt)
    (h : BlockChainInv params s) : BlockChainInv params (step params s evt) := by
  cases evt with
  | messageUpdate isA kind delta content =>
    simp only [step]
    split
    · exact stepTextUpdate_blockChainInv hgood h
    · exact h
  | messageEnd isA text =>
    simp only [step]
    split
    · exact stepMessageEnd_blockChainInv hgood h
    · exact h
  | toolStart id meta => exact blockChainInv_of_view rfl h
  | toolEnd n id => exact blockChainInv_of_view rfl h
  | autoCompactionStart =>
    exact blockChainInv_of_view
      ((ensurePromise_blockView _).trans rfl) h
  | autoCompactionEnd w =>
    simp only [step]
    split
    · have hX : BlockChainInv params (ensurePromise
          { s with compactionInFlight := false,
                   pendingCompactionRetry := s.pendingCompactionRetry + 1 }) :=
        blockChainInv_of_view ((ensurePromise_blockView _).trans rfl) h
      exact blockChainInv_bump hX rfl rfl rfl
    · exact blockChainInv_of_view
        ((maybeResolveCompactionWait_blockView _).trans rfl) h
  | agentStart => exact h
  | agentEnd =>
    simp only [step]
    split
    · exact blockChainInv_of_view (resolveCompactionRetry_blockView _) h
    · exact blockChainInv_of_view (maybeResolveCompactionWait_blockView _) h

theorem runSubscriber_blockChainInv {params : SubscriberParams}
    (hgood : SplitKeepsContent params.splitMedia) (evts : List AgentEvt) :
    BlockChainInv params (runSubscriber params evts) :=
  runSubscriber_inv params (BlockChainInv params)
    ⟨fun _ => rfl,
     by intro e he; simp [initState] at he,
     by intro e he; simp [initState] at he,
     by simp [initState],
     by intro e he; simp [initState] at he⟩
    (fun _ evt h => step_blockChainInv hgood evt h) evts

/-- C8 (amended): no block chunk is empty, and no two consecutive block
chunks within one dedup epoch (between `message_end` / compaction-retry
resets of `lastBlockReplyText`) are identical, provided media extraction
never maps a non-empty chunk to an empty payload; equal chunks can repeat
across assistant messages because the dedup register is reset. -/
theorem C8_within_message_dedup (params : SubscriberParams)
    (hgood : SplitKeepsContent params.splitMedia) (evts : List AgentEvt) :
    (∀ e ∈ (runSubscriber params evts).blockLog, e.raw ≠ []) ∧
      List.Chain' SameSegNe (runSubscriber params evts).blockLog := by
  have h := runSubscriber_blockChainInv hgood evts
  exact ⟨h.2.1, h.2.2.2.1⟩

/-- Witness for C8 on the duplicate-across-messages trace. -/
theorem C8_witness :
    SplitKeepsContent cfgC8.splitMedia ∧
    ((∀ e ∈ (runSubscriber cfgC8 trC8).blockLog, e.raw ≠ []) ∧
      List.Chain' SameSegNe (runSubscriber cfgC8 trC8).blockLog) :=
  ⟨fun _ hs => Or.inl hs,
   C8_within_message_dedup cfgC8 (fun _ hs => Or.inl hs) trC8⟩
